import Mathlib

/-!
# Verification of the wander crawling engine's core components

Shallow embedding of the in-memory priority queue (`request/request.go`,
`RequestHeapQueue`), the robots-exclusion matcher and parser
(`limits/robots`), the throttle collection (`limits/limit.go`) and the
spider enqueue path (`wander.Spider`), together with proofs of the
specification's claims about them.

Conventions:
- Go `int` is embedded as `Int` where the value is compared or added,
  and as `Nat` where it is used as an array index or size (the code
  keeps those fields non-negative).
- Go slices backing the heap are embedded as a function `Nat → HeapNode`
  together with an explicit length field; all reads and writes performed
  by the code stay below the length (`count ≤ dataLen` is an invariant).
- `*Request` pointers are embedded as `Nat` identifiers; the zero value
  (`heapNode{}`) carries identifier `0` standing for Go's `nil`.
- Mutexes, condition variables and channels are not represented: every
  embedded operation is the body of the corresponding Go method run
  atomically, which is exactly what the locks enforce.
-/

namespace Wander

/-- One entry of the heap backing array (`heapNode` in `request/request.go`). -/
structure HeapNode where
  priority : Int
  insertionCount : Int
  request : Nat
deriving DecidableEq, Repr

/-- The zero value `heapNode{}`. -/
def zeroNode : HeapNode := ⟨0, 0, 0⟩

/-- `less` from `request/request.go`:
`a < b iff a.priority < b.priority or (equal priority and a.insertionCount > b.insertionCount)`. -/
def less (a b : HeapNode) : Bool :=
  if a.priority < b.priority then true
  else if a.priority = b.priority then decide (a.insertionCount > b.insertionCount)
  else false

/-- The complement of `less`: `a` is at least as high in the heap order as `b`. -/
def nodeGe (a b : HeapNode) : Prop :=
  b.priority < a.priority ∨ (a.priority = b.priority ∧ a.insertionCount ≤ b.insertionCount)

instance nodeGeDecidable (a b : HeapNode) : Decidable (nodeGe a b) := by
  unfold nodeGe; infer_instance

/-! ## Heap index arithmetic (`leftChildIndex`, `rightChildIndex`, `parentIndex`) -/

/-- `leftChildIndex` from `request/request.go`: `(i * 2) + 1`. -/
def leftChildIndex (i : Nat) : Nat := i * 2 + 1

/-- `rightChildIndex` from `request/request.go`: `(i * 2) + 2`. -/
def rightChildIndex (i : Nat) : Nat := i * 2 + 2

/-- `parentIndex` from `request/request.go`: `((i + 1) / 2) - 1`, clamped at 0.
Natural subtraction performs the same clamping as the explicit `if parent < 0` in Go. -/
def parentIndex (i : Nat) : Nat := (i + 1) / 2 - 1

/-! ## The subtree relation on heap indices -/

/-- `InSub i j` holds when index `j` lies in the binary-tree subtree rooted at `i`
(with children `2k+1`, `2k+2`). -/
inductive InSub : Nat → Nat → Prop
  | refl (i : Nat) : InSub i i
  | left {i j : Nat} : InSub i j → InSub i (leftChildIndex j)
  | right {i j : Nat} : InSub i j → InSub i (rightChildIndex j)

/-! ## Backing array as a function, with the two primitive mutations
(single-cell assignment and the parallel swap `r.data[i], r.data[j] = r.data[j], r.data[i]`). -/

/-- Single-cell write `data[i] = v`. -/
def updatef (f : Nat → HeapNode) (i : Nat) (v : HeapNode) : Nat → HeapNode :=
  fun k => if k = i then v else f k

/-- Parallel swap `data[i], data[j] = data[j], data[i]`. -/
def swapf (f : Nat → HeapNode) (i j : Nat) : Nat → HeapNode :=
  fun k => if k = i then f j else if k = j then f i else f k

/-- The first `n` cells of the array, as a list (the live portion of the heap). -/
def contentsN (n : Nat) (f : Nat → HeapNode) : List HeapNode :=
  (List.range n).map f

/-! ## `maxHeapify` (sift-down) from `request/request.go` -/

/-- One of the two child comparisons in the `maxHeapify` loop body:
`if c < r.count && less(r.data[max], r.data[c]) { max = c }`. -/
def pickMaxStep (cnt : Nat) (f : Nat → HeapNode) (mx c : Nat) : Nat :=
  if c < cnt ∧ less (f mx) (f c) = true then c else mx

/-- One iteration of the `maxHeapify` loop body: starting from `max = i`,
compare with the left child, then with the right child, and return the
resulting `max` index. -/
def pickMax (cnt : Nat) (f : Nat → HeapNode) (i : Nat) : Nat :=
  pickMaxStep cnt f (pickMaxStep cnt f i (leftChildIndex i)) (rightChildIndex i)

/-- The `maxHeapify` loop with an explicit iteration bound.  Each iteration
moves `i` to a strict descendant below `cnt`, so `cnt - i` iterations always
suffice; the bound makes the recursion structural (and hence computable by
the kernel) without changing the computed result. -/
def maxHeapifyF : Nat → Nat → (Nat → HeapNode) → Nat → (Nat → HeapNode)
  | 0, _, f, _ => f
  | fuel + 1, cnt, f, i =>
    if pickMax cnt f i = i then f
    else maxHeapifyF fuel cnt (swapf f i (pickMax cnt f i)) (pickMax cnt f i)

/-- `maxHeapify` from `request/request.go`: sift the node at index `i` down,
swapping with the larger child, until no swap occurs. `cnt` is `r.count`. -/
def maxHeapify (cnt : Nat) (f : Nat → HeapNode) (i : Nat) : Nat → HeapNode :=
  maxHeapifyF (cnt - i) cnt f i

/-- Every parent–child edge whose parent lies inside the subtree rooted at `i`,
other than the edges leaving `i` itself, respects the heap order.  This is the
precondition of `maxHeapify`: the two subtrees hanging off `i` are heaps. -/
def SubHeapExceptTop (f : Nat → HeapNode) (cnt i : Nat) : Prop :=
  ∀ j, 0 < j → j < cnt → InSub i (parentIndex j) → parentIndex j ≠ i →
    nodeGe (f (parentIndex j)) (f j)

/-! ## The sift-up loop of `insert` -/

/-- The sift-up loop of `insert` with an explicit iteration bound: each
iteration moves `i` to its parent, so `i` iterations always suffice; the
bound makes the recursion structural without changing the computed result. -/
def siftUpF : Nat → (Nat → HeapNode) → Nat → (Nat → HeapNode)
  | 0, f, _ => f
  | fuel + 1, f, i =>
    if 0 < i ∧ (f (parentIndex i)).priority < (f i).priority then
      siftUpF fuel (swapf f i (parentIndex i)) (parentIndex i)
    else f

/-- The sift-up loop of `RequestHeapQueue.insert`:
`for i > 0 && r.data[i].priority > r.data[parent].priority { swap; i = parent }`.
Note the loop compares priorities only, not the full `less` order. -/
def siftUp (f : Nat → HeapNode) (i : Nat) : Nat → HeapNode := siftUpF i f i

/-- The binary max-heap property on the first `n` cells, with respect to the
full `less` order. -/
def HeapInv (f : Nat → HeapNode) (n : Nat) : Prop :=
  ∀ j, 0 < j → j < n → nodeGe (f (parentIndex j)) (f j)

/-! ## `RequestHeapQueue` and its operations -/

/-- `QueueMaxSize` error: "Request queue has reached maximum size of %d". -/
structure QueueMaxSize where
  size : Nat
deriving DecidableEq, Repr

/-- `RequestHeapQueue` from `request/request.go`.  The backing slice is the
pair (`data`, `dataLen`); the mutex, condition variable, wait group and
`isDone` flag belong to the concurrency layer and do not affect contents. -/
structure RequestHeapQueue where
  data : Nat → HeapNode
  dataLen : Nat
  count : Nat
  maxSize : Nat
  insertionCount : Int

/-- `NewRequestHeap`: `data := make([]heapNode, maxSize/10)`, all other
fields zero. -/
def newRequestHeap (maxSize : Nat) : RequestHeapQueue :=
  { data := fun _ => zeroNode
    dataLen := maxSize / 10
    count := 0
    maxSize := maxSize
    insertionCount := 0 }

/-- `data := make([]heapNode, newSize); copy(data, r.data)`: old cells are
copied, the rest are zero values (`newSize ≥ oldLen` at both call sites). -/
def growData (f : Nat → HeapNode) (oldLen : Nat) : Nat → HeapNode :=
  fun k => if k < oldLen then f k else zeroNode

/-- The state built by a successful `insert` once the growth step has
produced the array `d2` of length `len2`: the new node is placed at index
`count`, sifted up by priority, and the counters are bumped. -/
def insertResult (r : RequestHeapQueue) (req : Nat) (priority : Int)
    (len2 : Nat) (d2 : Nat → HeapNode) : RequestHeapQueue where
  data := siftUp (updatef d2 r.count
    { priority := priority, insertionCount := r.insertionCount + 1,
      request := req }) r.count
  dataLen := len2
  count := r.count + 1
  maxSize := r.maxSize
  insertionCount := r.insertionCount + 1

/-- `RequestHeapQueue.insert`: grow the array if needed (returning the
`QueueMaxSize` error if already at the maximum), place the new node at index
`count`, sift it up by priority, and bump the counters. -/
def insert (r : RequestHeapQueue) (req : Nat) (priority : Int) :
    Except QueueMaxSize RequestHeapQueue :=
  match
    (if r.count ≥ r.dataLen then
      if r.dataLen * 2 + 1 > r.maxSize then
        if r.count = r.maxSize then none
        else some (r.maxSize, growData r.data r.dataLen)
      else some (r.dataLen * 2 + 1, growData r.data r.dataLen)
    else some (r.dataLen, r.data) : Option (Nat × (Nat → HeapNode))) with
  | none => Except.error { size := r.maxSize }
  | some (len2, d2) => Except.ok (insertResult r req priority len2 d2)

/-- `Enqueue` takes the lock and calls `insert`. -/
def enqueue (r : RequestHeapQueue) (req : Nat) (priority : Int) :
    Except QueueMaxSize RequestHeapQueue :=
  insert r req priority

/-- `RequestHeapQueue.extract`: read the root's request, move the last live
cell to the root, decrement the count and sift down. -/
def extract (r : RequestHeapQueue) : Nat × RequestHeapQueue :=
  ((r.data 0).request,
    { r with
      count := r.count - 1
      data := maxHeapify (r.count - 1) (updatef r.data 0 (r.data (r.count - 1))) 0 })

/-- `RequestHeapQueue.Clear`: `for i := range r.data { r.data[i] = heapNode{} }`.
Only the array cells are zeroed; `count` and `insertionCount` are untouched. -/
def clearQueue (r : RequestHeapQueue) : RequestHeapQueue :=
  { r with data := fun k => if k < r.dataLen then zeroNode else r.data k }

/-- `RequestHeapQueue.Count` (its error result is always `nil`). -/
def countQueue (r : RequestHeapQueue) : Nat := r.count

/-- The root nodes observed by repeatedly extracting, with an explicit
iteration bound (each `extract` decrements the count, so `r.count`
iterations always suffice). -/
def drainNodesF : Nat → RequestHeapQueue → List HeapNode
  | 0, _ => []
  | fuel + 1, r =>
      if 0 < r.count then r.data 0 :: drainNodesF fuel (extract r).2 else []

/-- The nodes observed at the root by repeatedly extracting until the queue
is empty (the dequeue loop of a single consumer). -/
def drainNodes (r : RequestHeapQueue) : List HeapNode := drainNodesF r.count r

/-- The requests delivered by repeatedly extracting, with an explicit
iteration bound. -/
def drainRequestsF : Nat → RequestHeapQueue → List Nat
  | 0, _ => []
  | fuel + 1, r =>
      if 0 < r.count then (extract r).1 :: drainRequestsF fuel (extract r).2 else []

/-- The requests delivered by repeatedly extracting until the queue is empty. -/
def drainRequests (r : RequestHeapQueue) : List Nat := drainRequestsF r.count r

/-- Run a sequence of `Enqueue` operations; an `Enqueue` that fails with
`QueueMaxSize` leaves the queue unchanged (the error is returned before any
mutation). -/
def enqueueAll (r : RequestHeapQueue) : List (Nat × Int) → RequestHeapQueue
  | [] => r
  | (req, p) :: rest =>
    enqueueAll
      (match enqueue r req p with
        | Except.ok r2 => r2
        | Except.error _ => r) rest

/-- State invariant of the queue: the live region fits in the array, the
array fits in the configured maximum, the live region is a max-heap, and
every stored insertion counter is at most the queue's counter. -/
structure QInv (r : RequestHeapQueue) : Prop where
  count_le : r.count ≤ r.dataLen
  len_le : r.dataLen ≤ r.maxSize
  heap : HeapInv r.data r.count
  icBound : ∀ x ∈ contentsN r.count r.data, x.insertionCount ≤ r.insertionCount

/-- The nodes that a sequence of successful `Enqueue` operations creates,
starting from insertion counter `ic`. -/
def mkNodes : List (Nat × Int) → Int → List HeapNode
  | [], _ => []
  | (req, p) :: rest, ic =>
      { priority := p, insertionCount := ic + 1, request := req } :: mkNodes rest (ic + 1)

/-- Strict ordering of heap nodes by insertion counter. -/
def icLt (a b : HeapNode) : Prop := a.insertionCount < b.insertionCount

instance : IsAntisymm HeapNode icLt :=
  ⟨fun a b h1 h2 => absurd (lt_trans h1 h2) (lt_irrefl _)⟩

/-! ## Robots exclusion (`limits/robots`): `MatchURLRule`, `RobotFile` -/

/-- Strings are embedded as lists of characters; the Go code indexes bytes
and every input involved here is ASCII, so the two views coincide. -/
abbrev Str := List Char

/-- `matchWildcard`: scan `value` for the first occurrence of `seekChar`,
returning its index and `true`, or `0` and `false` when absent. -/
def matchWildcard (seekChar : Char) (value : Str) : Nat × Bool :=
  match value.findIdx? (fun c => c == seekChar) with
  | some i => (i, true)
  | none => (0, false)

/-- The scanning loop of `MatchURLRule`, over the remaining rule and the
remaining url (the Go code tracks indexes `i` into `rule` and `j` into
`url`; the arguments here are the suffixes from those indexes on).
On `*`: accept if it ends the rule, otherwise scan the url forward for the
next rule character.  On `$`: accept exactly when the url is exhausted.
Otherwise require a literal match and advance both. -/
def matchFrom : Str → Str → Bool
  | [], _ => true
  | c :: rest, url =>
    if c = '*' then
      match rest with
      | [] => true
      | c2 :: _ =>
        let r := matchWildcard c2 url
        if r.2 then matchFrom rest (url.drop r.1) else false
    else if c = '$' then url.isEmpty
    else
      match url with
      | [] => false
      | x :: xs => if c = x then matchFrom rest xs else false

/-- `MatchURLRule` from `limits/robots`: returns false outright whenever the
rule is longer than the url, otherwise runs the scanning loop. -/
def matchURLRule (rule url : Str) : Bool :=
  if rule.length > url.length then false else matchFrom rule url

/-- `UserAgentRules`: one robots group (user-agent token, ordered allow and
disallow patterns, crawl delay with `-1` sentinel for unset). -/
structure UserAgentRules where
  userAgent : Str
  allowed : List Str
  disallowed : List Str
  delay : Int
deriving DecidableEq, Repr

/-- `newUserAgentRules`. -/
def newUserAgentRules (userAgent : Str) : UserAgentRules :=
  { userAgent := userAgent, allowed := [], disallowed := [], delay := -1 }

/-- The allow/disallow scanning loops of `UserAgentRules.Allowed`: true as
soon as one pattern matches. -/
def anyRuleMatches : List Str → Str → Bool
  | [], _ => false
  | r :: rest, url => if matchURLRule r url then true else anyRuleMatches rest url

/-- `UserAgentRules.Allowed`: any allow match grants access, else any
disallow match denies it, else access is granted. -/
def UserAgentRules.Allowed (g : UserAgentRules) (url : Str) : Bool :=
  if anyRuleMatches g.allowed url then true
  else if anyRuleMatches g.disallowed url then false
  else true

/-- `RobotFile`: default (`*`) group, user-agent → group map, sitemap URL
(kept as its raw string; `url.Parse` is external to this package). -/
structure RobotFile where
  defaultLimits : Option UserAgentRules
  groups : List (Str × UserAgentRules)
  sitemap : Option Str
deriving DecidableEq, Repr

/-- `newRobotFile` (the default group is nil until one is added). -/
def newRobotFile : RobotFile :=
  { defaultLimits := none, groups := [], sitemap := none }

/-- Go map assignment `groups[key] = value`: replace the binding if the key
is present, else add it. -/
def mapInsert (m : List (Str × UserAgentRules)) (k : Str) (v : UserAgentRules) :
    List (Str × UserAgentRules) :=
  match m with
  | [] => [(k, v)]
  | (k', v') :: rest =>
      if k' = k then (k, v) :: rest else (k', v') :: mapInsert rest k v

/-- Go map read `groups[key]`. -/
def mapLookup (m : List (Str × UserAgentRules)) (k : Str) : Option UserAgentRules :=
  match m with
  | [] => none
  | (k', v) :: rest => if k' = k then some v else mapLookup rest k

/-- `RobotFile.addUserAgentRules`: a `*` group becomes the default group,
any other group is stored in the map under its user-agent token. -/
def addUserAgentRules (l : RobotFile) (g : UserAgentRules) : RobotFile :=
  if g.userAgent = ['*'] then { l with defaultLimits := some g }
  else { l with groups := mapInsert l.groups g.userAgent g }

/-- `RobotFile.Allowed`: the group whose user-agent token equals `userAgent`
exactly, else the default group.  The Go code dereferences `defaultLimits`
unconditionally in the fallback; the parser always sets it, and on a file
without one the dereference would panic — that unreachable case is mapped to
`true` here. -/
def RobotFile.Allowed (l : RobotFile) (userAgent url : Str) : Bool :=
  match mapLookup l.groups userAgent with
  | some g => g.Allowed url
  | none =>
    match l.defaultLimits with
    | some d => d.Allowed url
    | none => true

/-- `strings.Trim(line, " \t")`. -/
def trimSpaceTab (l : Str) : Str :=
  ((l.dropWhile fun c => c == ' ' || c == '\t').reverse.dropWhile
    fun c => c == ' ' || c == '\t').reverse

/-- `strings.SplitN(line, ":", 2)`: the part before the first `:`, and the
part after it when a `:` is present. -/
def splitColon : Str → Str × Option Str
  | [] => ([], none)
  | c :: rest =>
    if c = ':' then ([], some rest)
    else
      let r := splitColon rest
      (c :: r.1, r.2)

/-- `strings.TrimPrefix(s, " ")`: remove a single leading space if present. -/
def dropLeadingSpace : Str → Str
  | ' ' :: rest => rest
  | l => l

/-- Parse failures of `NewRobotFileFromReader` (the Go error messages carry
no further structure relevant here). -/
inductive RobotsParseError where
  | invalidUserAgent
  | invalidCrawlDelay
  | negativeCrawlDelay
  | invalidSitemap
deriving DecidableEq, Repr

def userAgentStr : Str := ['u', 's', 'e', 'r', '-', 'a', 'g', 'e', 'n', 't']

def disallowStr : Str := ['d', 'i', 's', 'a', 'l', 'l', 'o', 'w']

def allowStr : Str := ['a', 'l', 'l', 'o', 'w']

def crawlDelayStr : Str := ['c', 'r', 'a', 'w', 'l', '-', 'd', 'e', 'l', 'a', 'y']

def sitemapStr : Str := ['s', 'i', 't', 'e', 'm', 'a', 'p']

/-- The scanner loop of `NewRobotFileFromReader`, over the file's lines.
`parseDur` stands for the external `time.ParseDuration(parameter + "s")`
(returning the delay when the parameter parses) and `parseURL` for the
external `url.Parse`; both are stdlib functions outside this package. -/
def parseLines (parseDur : Str → Option Int) (parseURL : Str → Option Str) :
    List Str → RobotFile → UserAgentRules → Except RobotsParseError RobotFile
  | [], limits, rules => Except.ok (addUserAgentRules limits rules)
  | rawLine :: rest, limits, rules =>
    let line := trimSpaceTab rawLine
    match line with
    | [] => parseLines parseDur parseURL rest limits rules
    | c :: _ =>
      if c = '#' then parseLines parseDur parseURL rest limits rules
      else
        let parts := splitColon line
        let parameter := match parts.2 with
          | some s => dropLeadingSpace s
          | none => []
        let directive := parts.1.map Char.toLower
        if directive = userAgentStr then
          if parameter = [] then Except.error RobotsParseError.invalidUserAgent
          else parseLines parseDur parseURL rest (addUserAgentRules limits rules)
            (newUserAgentRules parameter)
        else if directive = disallowStr then
          if parameter = [] then
            parseLines parseDur parseURL rest limits { rules with disallowed := [] }
          else
            parseLines parseDur parseURL rest limits
              { rules with disallowed := rules.disallowed ++ [parameter] }
        else if directive = allowStr then
          if parameter = [] then
            parseLines parseDur parseURL rest limits { rules with allowed := [] }
          else
            parseLines parseDur parseURL rest limits
              { rules with allowed := rules.allowed ++ [parameter] }
        else if directive = crawlDelayStr then
          match parseDur parameter with
          | none => Except.error RobotsParseError.invalidCrawlDelay
          | some d =>
            if d < 0 then Except.error RobotsParseError.negativeCrawlDelay
            else parseLines parseDur parseURL rest limits { rules with delay := d }
        else if directive = sitemapStr then
          match parseURL parameter with
          | none => Except.error RobotsParseError.invalidSitemap
          | some u => parseLines parseDur parseURL rest { limits with sitemap := some u } rules
        else parseLines parseDur parseURL rest limits rules

/-- `NewRobotFileFromReader`: scan all lines starting from an empty file and
a fresh `*` group, adding the final group at end of input. -/
def newRobotFileFromLines (parseDur : Str → Option Int)
    (parseURL : Str → Option Str) (lines : List Str) :
    Except RobotsParseError RobotFile :=
  parseLines parseDur parseURL lines newRobotFile (newUserAgentRules ['*'])

/-- Stand-in for the external duration parser on a file that contains no
`crawl-delay` directive (never consulted there). -/
def noDur : Str → Option Int := fun _ => none

/-- Stand-in for the external URL parser on a file that contains no
`sitemap` directive (never consulted there). -/
def noURL : Str → Option Str := fun _ => none

def baiduStr : Str := ['B', 'a', 'i', 'd', 'u']

def slurpStr : Str := ['S', 'l', 'u', 'r', 'p']

def otherStr : Str := ['O', 't', 'h', 'e', 'r']

/-- The robots file of the claim:
`User-agent: Baidu / Disallow: /` and
`User-agent: Slurp / Disallow: / / Allow: /test`. -/
def c4File : List Str :=
  [ ['U', 's', 'e', 'r', '-', 'a', 'g', 'e', 'n', 't', ':', ' ',
      'B', 'a', 'i', 'd', 'u'],
    ['D', 'i', 's', 'a', 'l', 'l', 'o', 'w', ':', ' ', '/'],
    ['U', 's', 'e', 'r', '-', 'a', 'g', 'e', 'n', 't', ':', ' ',
      'S', 'l', 'u', 'r', 'p'],
    ['D', 'i', 's', 'a', 'l', 'l', 'o', 'w', ':', ' ', '/'],
    ['A', 'l', 'l', 'o', 'w', ':', ' ', '/', 't', 'e', 's', 't'] ]

/-- The claim's robots file, parsed. -/
def c4Parsed : RobotFile :=
  ((newRobotFileFromLines noDur noURL c4File).toOption).getD newRobotFile

/-! ## Throttle collection (`limits/limit.go`)

Real time is not modelled: a throttle's periodic ticker wait has no
observable state effect, while the one-shot back-off gate (`waitChannel`)
does — `Wait` receives from it and sets it to nil.  Each operation below is
the state effect of the corresponding Go method. -/

/-- `DefaultThrottle` (also embedded in `DomainThrottle`): the fixed
interval, and `waitChannel` as the pending back-off duration (`none` = nil
channel). -/
structure ThrottleState where
  interval : Int
  pending : Option Int
deriving DecidableEq, Repr

/-- `ThrottleCollection`: one optional default throttle plus a host →
throttle map. -/
structure ThrottleCollection where
  defaultThrottle : Option ThrottleState
  domainThrottles : List (Str × ThrottleState)
deriving DecidableEq, Repr

/-- Go map read `domainThrottles[host]`. -/
def tcLookup (m : List (Str × ThrottleState)) (k : Str) : Option ThrottleState :=
  match m with
  | [] => none
  | (k', v) :: rest => if k' = k then some v else tcLookup rest k

/-- Go map assignment `domainThrottles[host] = throttle`. -/
def tcInsert (m : List (Str × ThrottleState)) (k : Str) (v : ThrottleState) :
    List (Str × ThrottleState) :=
  match m with
  | [] => [(k, v)]
  | (k', v') :: rest =>
      if k' = k then (k, v) :: rest else (k', v') :: tcInsert rest k v

/-- `DefaultThrottle.SetWaitTime`: `t.waitChannel = time.After(waitTime)`. -/
def throttleSetWaitTime (t : ThrottleState) (waitTime : Int) : ThrottleState :=
  { t with pending := some waitTime }

/-- `DefaultThrottle.Wait`: receive from `waitChannel` if non-nil and clear
it, then wait for the ticker.  Returns the consumed back-off, if any. -/
def throttleWait (t : ThrottleState) : ThrottleState × Option Int :=
  match t.pending with
  | some d => ({ t with pending := none }, some d)
  | none => (t, none)

/-- `ThrottleCollection.SetWaitTime`: install the back-off gate on the
default throttle (if present) and on every domain throttle. -/
def setWaitTime (c : ThrottleCollection) (waitTime : Int) : ThrottleCollection :=
  { defaultThrottle := c.defaultThrottle.map fun t => throttleSetWaitTime t waitTime
    domainThrottles := c.domainThrottles.map
      fun kv => (kv.1, throttleSetWaitTime kv.2 waitTime) }

/-- `ThrottleCollection.SetDomainThrottle`. -/
def setDomainThrottle (c : ThrottleCollection) (host : Str) (t : ThrottleState) :
    ThrottleCollection :=
  { c with domainThrottles := tcInsert c.domainThrottles host t }

/-- `ThrottleCollection.getThrottle`: the domain throttle for the host if
present, else the default throttle, else none. -/
def getThrottle (c : ThrottleCollection) (host : Str) : Option ThrottleState :=
  match tcLookup c.domainThrottles host with
  | some t => some t
  | none => c.defaultThrottle

/-- `ThrottleCollection.Wait`: wait on the selected throttle (domain first,
else default, else return immediately).  Returns the new collection and the
back-off consumed by that throttle, if any. -/
def collectionWait (c : ThrottleCollection) (host : Str) :
    ThrottleCollection × Option Int :=
  match tcLookup c.domainThrottles host with
  | some t =>
      let r := throttleWait t
      ({ c with domainThrottles := tcInsert c.domainThrottles host r.1 }, r.2)
  | none =>
    match c.defaultThrottle with
    | some t =>
        let r := throttleWait t
        ({ c with defaultThrottle := some r.1 }, r.2)
    | none => (c, none)

/-- No pending back-off anywhere in the collection. -/
def noPendingBackoff (c : ThrottleCollection) : Bool :=
  (match c.defaultThrottle with
    | some t => t.pending == none
    | none => true)
  && c.domainThrottles.all fun kv => kv.2.pending == none

def aHost : Str := ['a']

def bHost : Str := ['b']

/-- A collection with a default throttle and one domain throttle, as a
spider configured with both would hold. -/
def c9Example : ThrottleCollection :=
  { defaultThrottle := some { interval := 100, pending := none }
    domainThrottles := [(aHost, { interval := 50, pending := none })] }

/-! ## The spider enqueue path and `VisitNow` (package `wander`) -/

/-- A crawl request as the enqueue path sees it: the URL's host (matched
against the allowed domains) and the URL's canonical string
(`req.URL.String()`, the visited-cache key). -/
structure SpiderRequest where
  host : Str
  urlKey : Str
deriving DecidableEq, Repr

/-- Errors returned by the repository's `limits.RequestFilter`
implementations (`MaxDepthReached`; `custom` stands for any user filter's
own error). -/
inductive FilterError where
  | maxDepthReached
  | custom (code : Nat)
deriving DecidableEq, Repr

/-- Errors of the enqueue path (`spider_errors` and `limits`/`robots`
error types). -/
inductive SpiderError where
  | forbiddenDomain
  | alreadyVisited
  | robotDenied
  | robotFetchFailed (code : Nat)
  | queueFull
  | filterFailed (e : FilterError)
deriving DecidableEq, Repr

/-- The spider state and configuration visible to the enqueue path.
`filters` stands for the `limits` map of `RequestFilter`s (iterated in some
order); `robotCheck` stands for the configured `RobotExclusionFunction`
(its robot-cache and throttle side effects touch neither the visited cache
nor the queue, which are the subjects of the claims below).  The queue is
the `Queue` interface: `queued` records what was enqueued.  -/
structure SpiderModel where
  allowedDomains : List Str
  filters : List (SpiderRequest → Option FilterError)
  visited : List Str
  queued : List (SpiderRequest × Int)
  robotCheck : SpiderRequest → Option SpiderError

/-- The loop of `Spider.filterRequestDomain`: true as soon as one allowed
domain pattern matches the request's host via `robots.MatchURLRule`. -/
def anyDomainMatches : List Str → Str → Bool
  | [], _ => false
  | d :: rest, host =>
      if matchURLRule d host then true else anyDomainMatches rest host

/-- `Spider.filterRequestDomain`. -/
def filterRequestDomain (s : SpiderModel) (req : SpiderRequest) : Bool :=
  anyDomainMatches s.allowedDomains req.host

/-- The filter loop of `Spider.addRequest`: first failure wins. -/
def runFilters : List (SpiderRequest → Option FilterError) → SpiderRequest →
    Option FilterError
  | [], _ => none
  | f :: rest, req =>
    match f req with
    | some e => some e
    | none => runFilters rest req

/-- `Spider.addRequest`: domain filter, user filters, visited-cache check,
cache insert, robot-exclusion check, enqueue — in that order.  The enqueue
itself is modelled as always accepting (`QUEUE_FULL` propagation happens
after the cache insert and does not affect the claims below). -/
def addRequest (s : SpiderModel) (req : SpiderRequest) (priority : Int) :
    SpiderModel × Option SpiderError :=
  if filterRequestDomain s req = false then
    (s, some SpiderError.forbiddenDomain)
  else
    match runFilters s.filters req with
    | some e => (s, some (SpiderError.filterFailed e))
    | none =>
      if req.urlKey ∈ s.visited then (s, some SpiderError.alreadyVisited)
      else
        let s2 := { s with visited := s.visited ++ [req.urlKey] }
        match s.robotCheck req with
        | some e => (s2, some e)
        | none => ({ s2 with queued := s2.queued ++ [(req, priority)] }, none)

/-- Modelled from the spec: `util.MaxInt` (its source file is not in the
corpus; the spec says `Visit` uses maximum priority), the largest Go `int`. -/
def maxIntGo : Int := 2 ^ 63 - 1

/-- `Spider.Visit`: enqueue with maximum priority (after `request.NewRequest`
has built the request). -/
def visit (s : SpiderModel) (req : SpiderRequest) :
    SpiderModel × Option SpiderError :=
  addRequest s req maxIntGo

/-- `Spider.Follow`: enqueue with the caller-supplied priority. -/
def follow (s : SpiderModel) (req : SpiderRequest) (priority : Int) :
    SpiderModel × Option SpiderError :=
  addRequest s req priority

/-- A request whose host matches the single allowed pattern `*`, against a
spider whose robot-exclusion function denies everything: the concrete input
for the C7 witness. -/
def c7Example : SpiderModel :=
  { allowedDomains := [['*']]
    filters := []
    visited := []
    queued := []
    robotCheck := fun _ => some SpiderError.robotDenied }

def c7Req : SpiderRequest := { host := ['h'], urlKey := ['u'] }

/-- A spider with the default (empty) allowed-domain list: the concrete
input for the C10 witness. -/
def c10Example : SpiderModel :=
  { allowedDomains := []
    filters := []
    visited := []
    queued := []
    robotCheck := fun _ => none }

/-! ## `VisitNow` versus the ingestor pipeline (C8)

The fetch pipeline is modelled by the sequence of externally visible steps a
call performs, read off the bodies of `Spider.VisitNow`, `Spider.getResponse`,
`Spider.RoundTrip` and the ingestor loop in `Spider.spawn`. -/

/-- The observable steps of the fetch pipeline. -/
inductive SpiderEvent where
  | throttleWait
  | httpRoundTrip
  | responseStatusCheck
  | responseCallback
  | documentParse
  | selectorCallback (selector : Str)
  | pipelineDone
deriving DecidableEq, Repr

/-- `Spider.getResponse`: `RoundTrip` waits on the throttles and performs
the HTTP GET; nothing else happens. -/
def getResponseTrace : List SpiderEvent :=
  [SpiderEvent.throttleWait, SpiderEvent.httpRoundTrip]

/-- `Spider.VisitNow`: build the request, then `getResponse` — and return. -/
def visitNowTrace : List SpiderEvent := getResponseTrace

/-- One successful iteration of the ingestor loop in `Spider.spawn` after a
dequeue (request callback keeps the request, the fetch succeeds):
`getResponse`, then `CheckResponseStatus`, the response callback, one
document parse plus the selector callbacks when any selectors are
registered, and the pipeline-finished callback. -/
def workerStepTrace (selectors : List Str) : List SpiderEvent :=
  getResponseTrace
    ++ [SpiderEvent.responseStatusCheck, SpiderEvent.responseCallback]
    ++ (if selectors.isEmpty then [] else
        SpiderEvent.documentParse :: selectors.map SpiderEvent.selectorCallback)
    ++ [SpiderEvent.pipelineDone]

/-! ## Theorems -/

theorem less_false_iff {a b : HeapNode} : less a b = false ↔ nodeGe a b := by
  unfold less nodeGe
  split_ifs with h1 h2
  · constructor
    · intro h; simp at h
    · rintro (h | ⟨he, _⟩) <;> omega
  · rw [decide_eq_false_iff_not]
    constructor
    · intro h; exact Or.inr ⟨h2, by omega⟩
    · rintro (h | ⟨_, h⟩) <;> omega
  · constructor
    · intro _; left; omega
    · intro _; rfl

theorem less_true_iff {a b : HeapNode} : less a b = true ↔ ¬ nodeGe a b := by
  rw [← less_false_iff]
  cases h : less a b <;> simp

theorem nodeGe_refl (a : HeapNode) : nodeGe a a := Or.inr ⟨rfl, le_refl _⟩

theorem nodeGe_trans {a b c : HeapNode} (h1 : nodeGe a b) (h2 : nodeGe b c) : nodeGe a c := by
  unfold nodeGe at *
  rcases h1 with h1 | ⟨h1, h1'⟩ <;> rcases h2 with h2 | ⟨h2, h2'⟩
  · left; omega
  · left; omega
  · left; omega
  · right; exact ⟨h1.trans h2, le_trans h1' h2'⟩

theorem nodeGe_total {a b : HeapNode} (h : ¬ nodeGe a b) : nodeGe b a := by
  unfold nodeGe at *
  push_neg at h
  rcases h with ⟨hp, hq⟩
  rcases lt_trichotomy a.priority b.priority with h | h | h
  · left; exact h
  · right; exact ⟨h.symm, le_of_lt (hq h)⟩
  · exact absurd h (not_lt.mpr hp)

theorem nodeGe_priority {a b : HeapNode} (h : nodeGe a b) : b.priority ≤ a.priority := by
  rcases h with h | ⟨h, _⟩ <;> omega

theorem parentIndex_lt {i : Nat} (h : 0 < i) : parentIndex i < i := by
  unfold parentIndex; omega

theorem parentIndex_left (i : Nat) : parentIndex (leftChildIndex i) = i := by
  unfold parentIndex leftChildIndex; omega

theorem parentIndex_right (i : Nat) : parentIndex (rightChildIndex i) = i := by
  unfold parentIndex rightChildIndex; omega

theorem child_of_parentIndex {j : Nat} (h : 0 < j) :
    j = leftChildIndex (parentIndex j) ∨ j = rightChildIndex (parentIndex j) := by
  unfold parentIndex leftChildIndex rightChildIndex; omega

theorem lt_leftChildIndex (i : Nat) : i < leftChildIndex i := by
  unfold leftChildIndex; omega

theorem lt_rightChildIndex (i : Nat) : i < rightChildIndex i := by
  unfold rightChildIndex; omega

theorem InSub.le {i j : Nat} (h : InSub i j) : i ≤ j := by
  induction h with
  | refl => exact le_refl _
  | left _ ih => unfold leftChildIndex; omega
  | right _ ih => unfold rightChildIndex; omega

theorem InSub.trans {i j k : Nat} (h1 : InSub i j) (h2 : InSub j k) : InSub i k := by
  induction h2 with
  | refl => exact h1
  | left _ ih => exact InSub.left ih
  | right _ ih => exact InSub.right ih

theorem InSub.parent {i j : Nat} (h : InSub i j) :
    j ≠ i → InSub i (parentIndex j) ∧ 0 < j := by
  induction h with
  | refl => intro hne; exact absurd rfl hne
  | @left j' hk ih =>
      intro _
      refine ⟨?_, by unfold leftChildIndex; omega⟩
      rw [parentIndex_left]; exact hk
  | @right j' hk ih =>
      intro _
      refine ⟨?_, by unfold rightChildIndex; omega⟩
      rw [parentIndex_right]; exact hk

theorem InSub.ge_child {i j : Nat} (h : InSub i j) : j = i ∨ leftChildIndex i ≤ j := by
  induction h with
  | refl => exact Or.inl rfl
  | @left j' hk ih =>
      right
      have hij : i ≤ j' := hk.le
      unfold leftChildIndex at *
      omega
  | @right j' hk ih =>
      right
      have hij : i ≤ j' := hk.le
      unfold leftChildIndex rightChildIndex at *
      omega

theorem InSub.zero (j : Nat) : InSub 0 j := by
  induction j using Nat.strong_induction_on with
  | _ j ih =>
    rcases Nat.eq_zero_or_pos j with h | h
    · subst h; exact InSub.refl 0
    · have hp := ih (parentIndex j) (parentIndex_lt h)
      rcases child_of_parentIndex h with hc | hc
      · rw [hc]; exact InSub.left hp
      · rw [hc]; exact InSub.right hp

/-- Ancestors of a common index are comparable in the subtree order. -/
theorem InSub.chain {x y j : Nat} (hx : InSub x j) (hy : InSub y j) :
    InSub x y ∨ InSub y x := by
  induction j using Nat.strong_induction_on with
  | _ j ih =>
    by_cases hjx : j = x
    · subst hjx; exact Or.inr hy
    by_cases hjy : j = y
    · subst hjy; exact Or.inl hx
    obtain ⟨hx', hj⟩ := hx.parent hjx
    obtain ⟨hy', _⟩ := hy.parent hjy
    exact ih (parentIndex j) (parentIndex_lt hj) hx' hy'

theorem InSub.sibling_disjoint {i j : Nat}
    (h : InSub (leftChildIndex i) j) : ¬ InSub (rightChildIndex i) j := by
  intro h'
  rcases InSub.chain h h' with hc | hc
  · rcases hc.ge_child with he | he
    · unfold leftChildIndex rightChildIndex at he; omega
    · have := hc.le
      unfold leftChildIndex rightChildIndex at *; omega
  · have := hc.le
    unfold leftChildIndex rightChildIndex at this; omega

theorem contentsN_zero (f : Nat → HeapNode) : contentsN 0 f = [] := rfl

theorem contentsN_succ (n : Nat) (f : Nat → HeapNode) :
    contentsN (n + 1) f = contentsN n f ++ [f n] := by
  unfold contentsN
  rw [List.range_succ, List.map_append, List.map_singleton]

theorem contentsN_congr {n : Nat} {f g : Nat → HeapNode}
    (h : ∀ k, k < n → f k = g k) : contentsN n f = contentsN n g := by
  unfold contentsN
  exact List.map_congr_left (fun a ha => h a (List.mem_range.mp ha))

theorem mem_contentsN {n : Nat} {f : Nat → HeapNode} {x : HeapNode} :
    x ∈ contentsN n f ↔ ∃ k, k < n ∧ f k = x := by
  unfold contentsN
  constructor
  · intro hx
    obtain ⟨k, hk, he⟩ := List.mem_map.mp hx
    exact ⟨k, List.mem_range.mp hk, he⟩
  · rintro ⟨k, hk, he⟩
    exact List.mem_map.mpr ⟨k, List.mem_range.mpr hk, he⟩

/-- Overwriting cell `i < n` and appending the old value permutes the cells
with the new value appended. -/
theorem updatef_perm (n : Nat) (f : Nat → HeapNode) (i : Nat) (v : HeapNode)
    (hi : i < n) :
    (contentsN n (updatef f i v) ++ [f i]).Perm (contentsN n f ++ [v]) := by
  induction n with
  | zero => omega
  | succ m ih =>
    rcases Nat.lt_or_ge i m with him | him
    · have hm : (updatef f i v) m = f m := by
        unfold updatef; exact if_neg (by omega)
      rw [contentsN_succ, contentsN_succ, hm]
      have s1 : (contentsN m (updatef f i v) ++ [f m] ++ [f i]).Perm
          (contentsN m (updatef f i v) ++ [f i] ++ [f m]) := by
        rw [List.append_assoc, List.append_assoc]
        exact List.Perm.append_left _ (List.Perm.swap _ _ _)
      have s2 : (contentsN m (updatef f i v) ++ [f i] ++ [f m]).Perm
          ((contentsN m f ++ [v]) ++ [f m]) := List.Perm.append_right _ (ih him)
      have s3 : ((contentsN m f ++ [v]) ++ [f m]).Perm
          (contentsN m f ++ [f m] ++ [v]) := by
        rw [List.append_assoc, List.append_assoc]
        exact List.Perm.append_left _ (List.Perm.swap _ _ _)
      exact (s1.trans s2).trans s3
    · have him' : i = m := by omega
      subst him'
      have hsame : contentsN i (updatef f i v) = contentsN i f :=
        contentsN_congr (fun k hk => by
          unfold updatef; exact if_neg (by omega))
      have hv : (updatef f i v) i = v := by unfold updatef; simp
      rw [contentsN_succ, contentsN_succ, hsame, hv]
      rw [List.append_assoc, List.append_assoc]
      exact List.Perm.append_left _ (List.Perm.swap _ _ _)

/-- Swapping two cells below `n` permutes the live cells. -/
theorem swapf_perm (n : Nat) (f : Nat → HeapNode) (i j : Nat)
    (hi : i < n) (hj : j < n) :
    (contentsN n (swapf f i j)).Perm (contentsN n f) := by
  by_cases hij : i = j
  · subst hij
    have : contentsN n (swapf f i i) = contentsN n f :=
      contentsN_congr (fun k _ => by
        unfold swapf
        by_cases h : k = i
        · simp [h]
        · simp [h])
    rw [this]
  · have hdecomp : swapf f i j = updatef (updatef f i (f j)) j (f i) := by
      funext k
      unfold swapf updatef
      have hji : ¬ j = i := fun h => hij h.symm
      by_cases h1 : k = i
      · subst h1; simp [hij, hji]
      · by_cases h2 : k = j <;> simp [h1, h2, hji]
    have h1 := updatef_perm n (updatef f i (f j)) j (f i) hj
    have h2 := updatef_perm n f i (f j) hi
    have hji : (updatef f i (f j)) j = f j := by
      unfold updatef; simp only [if_neg (Ne.symm hij)]
    rw [hji] at h1
    rw [hdecomp]
    have h3 : (contentsN n (updatef (updatef f i (f j)) j (f i)) ++ [f j]).Perm
        (contentsN n f ++ [f j]) := h1.trans h2
    exact (List.perm_append_right_iff _).mp h3

theorem nodeGe_of_not_less {a b : HeapNode} (h : ¬ less a b = true) : nodeGe a b := by
  cases hb : less a b with
  | false => exact less_false_iff.mp hb
  | true => exact absurd hb h

/-- Case analysis on one `maxHeapify` loop iteration: either no swap happens and
`f i` dominates both in-range children, or the returned index is an in-range
child holding the maximum of the three cells. -/
theorem pickMax_spec (cnt : Nat) (f : Nat → HeapNode) (i : Nat) :
    (pickMax cnt f i = i
      ∧ (leftChildIndex i < cnt → nodeGe (f i) (f (leftChildIndex i)))
      ∧ (rightChildIndex i < cnt → nodeGe (f i) (f (rightChildIndex i))))
    ∨ (pickMax cnt f i ≠ i ∧ i < pickMax cnt f i ∧ pickMax cnt f i < cnt
      ∧ (pickMax cnt f i = leftChildIndex i ∨ pickMax cnt f i = rightChildIndex i)
      ∧ nodeGe (f (pickMax cnt f i)) (f i)
      ∧ (leftChildIndex i < cnt → nodeGe (f (pickMax cnt f i)) (f (leftChildIndex i)))
      ∧ (rightChildIndex i < cnt → nodeGe (f (pickMax cnt f i)) (f (rightChildIndex i)))) := by
  unfold pickMax pickMaxStep
  split_ifs with hL hR1 hR2
  · -- max became left, then right
    right
    have hgeLi : nodeGe (f (leftChildIndex i)) (f i) :=
      nodeGe_total (less_true_iff.mp hL.2)
    have hgeRL : nodeGe (f (rightChildIndex i)) (f (leftChildIndex i)) :=
      nodeGe_total (less_true_iff.mp hR1.2)
    refine ⟨by have := lt_rightChildIndex i; omega, lt_rightChildIndex i, hR1.1,
      Or.inr rfl, nodeGe_trans hgeRL hgeLi, fun _ => hgeRL, fun _ => nodeGe_refl _⟩
  · -- max became left and stayed there
    right
    have hgeLi : nodeGe (f (leftChildIndex i)) (f i) :=
      nodeGe_total (less_true_iff.mp hL.2)
    have hgeLR : rightChildIndex i < cnt →
        nodeGe (f (leftChildIndex i)) (f (rightChildIndex i)) :=
      fun hRlt => nodeGe_of_not_less (fun hless => hR1 ⟨hRlt, hless⟩)
    exact ⟨by have := lt_leftChildIndex i; omega, lt_leftChildIndex i, hL.1,
      Or.inl rfl, hgeLi, fun _ => nodeGe_refl _, hgeLR⟩
  · -- max stayed at i, then became right
    right
    have hgeRi : nodeGe (f (rightChildIndex i)) (f i) :=
      nodeGe_total (less_true_iff.mp hR2.2)
    have hgeiL : leftChildIndex i < cnt → nodeGe (f i) (f (leftChildIndex i)) :=
      fun hLlt => nodeGe_of_not_less (fun hless => hL ⟨hLlt, hless⟩)
    exact ⟨by have := lt_rightChildIndex i; omega, lt_rightChildIndex i, hR2.1,
      Or.inr rfl, hgeRi, fun hLlt => nodeGe_trans hgeRi (hgeiL hLlt), fun _ => nodeGe_refl _⟩
  · -- no swap
    left
    have hgeiL : leftChildIndex i < cnt → nodeGe (f i) (f (leftChildIndex i)) :=
      fun hLlt => nodeGe_of_not_less (fun hless => hL ⟨hLlt, hless⟩)
    have hgeiR : rightChildIndex i < cnt → nodeGe (f i) (f (rightChildIndex i)) :=
      fun hRlt => nodeGe_of_not_less (fun hless => hR2 ⟨hRlt, hless⟩)
    exact ⟨rfl, hgeiL, hgeiR⟩

theorem maxHeapifyF_perm (fuel : Nat) : ∀ (cnt : Nat) (f : Nat → HeapNode) (i : Nat),
    (contentsN cnt (maxHeapifyF fuel cnt f i)).Perm (contentsN cnt f) := by
  induction fuel with
  | zero => intro cnt f i; exact List.Perm.refl _
  | succ fuel ih =>
    intro cnt f i
    show (contentsN cnt (if pickMax cnt f i = i then f
      else maxHeapifyF fuel cnt (swapf f i (pickMax cnt f i)) (pickMax cnt f i))).Perm
      (contentsN cnt f)
    split_ifs with h
    · exact List.Perm.refl _
    · rcases pickMax_spec cnt f i with ⟨he, _⟩ | ⟨_, hlt, hcnt, _⟩
      · exact absurd he h
      · exact (ih cnt (swapf f i (pickMax cnt f i)) (pickMax cnt f i)).trans
          (swapf_perm cnt f i (pickMax cnt f i) (by omega) hcnt)

/-- `maxHeapify` permutes the live cells of the array. -/
theorem maxHeapify_perm (cnt : Nat) (f : Nat → HeapNode) (i : Nat) :
    (contentsN cnt (maxHeapify cnt f i)).Perm (contentsN cnt f) :=
  maxHeapifyF_perm (cnt - i) cnt f i

theorem swapf_fst (f : Nat → HeapNode) (i j : Nat) : swapf f i j i = f j := by
  unfold swapf; simp

theorem swapf_snd (f : Nat → HeapNode) {i j : Nat} (h : j ≠ i) : swapf f i j j = f i := by
  unfold swapf; simp [h]

theorem swapf_other (f : Nat → HeapNode) {i j k : Nat} (h1 : k ≠ i) (h2 : k ≠ j) :
    swapf f i j k = f k := by
  unfold swapf; simp [h1, h2]

/-- If every edge with parent inside the subtree at `t` holds, the top of the
subtree dominates every element of the subtree. -/
theorem subtree_dominance {f : Nat → HeapNode} {cnt t : Nat}
    (h : ∀ j, 0 < j → j < cnt → InSub t (parentIndex j) →
      nodeGe (f (parentIndex j)) (f j)) :
    ∀ j, j < cnt → InSub t j → nodeGe (f t) (f j) := by
  intro j
  induction j using Nat.strong_induction_on with
  | _ j ih =>
    intro hj hsub
    by_cases hjt : j = t
    · subst hjt; exact nodeGe_refl _
    · obtain ⟨hpar, hj0⟩ := hsub.parent hjt
      have hedge := h j hj0 hj hpar
      have hup := ih (parentIndex j) (parentIndex_lt hj0)
        (lt_trans (parentIndex_lt hj0) hj) hpar
      exact nodeGe_trans hup hedge

/-- Correctness of the bounded `maxHeapify` loop, by induction on the bound:
if the subtrees hanging off `i` are heaps, then after the sift-down
(1) every edge with parent in the subtree of `i` respects the heap order,
(2) cells outside the subtree are untouched, and (3) every cell of the
subtree holds a value that was already in the live part of the subtree. -/
theorem maxHeapifyF_spec (fuel : Nat) : ∀ (cnt : Nat) (f : Nat → HeapNode) (i : Nat),
    cnt - i ≤ fuel → SubHeapExceptTop f cnt i →
    (∀ j, 0 < j → j < cnt → InSub i (parentIndex j) →
        nodeGe (maxHeapifyF fuel cnt f i (parentIndex j)) (maxHeapifyF fuel cnt f i j))
    ∧ (∀ j, ¬ InSub i j → maxHeapifyF fuel cnt f i j = f j)
    ∧ (∀ j, InSub i j → j < cnt →
        ∃ k, InSub i k ∧ k < cnt ∧ maxHeapifyF fuel cnt f i j = f k) := by
  induction fuel with
  | zero =>
    -- the bound is 0 only when the whole subtree of `i` is outside the live
    -- region, where there is nothing to do
    intro cnt f i hfuel pre
    refine ⟨?_, fun j _ => rfl, fun j hj hjc => ⟨j, hj, hjc, rfl⟩⟩
    intro j hj0 hjc hsub
    have h1 := hsub.le
    have h2 := parentIndex_lt hj0
    omega
  | succ fuel ih =>
    intro cnt f i hfuel pre
    show
      (∀ j, 0 < j → j < cnt → InSub i (parentIndex j) →
        nodeGe ((if pickMax cnt f i = i then f
            else maxHeapifyF fuel cnt (swapf f i (pickMax cnt f i)) (pickMax cnt f i))
            (parentIndex j))
          ((if pickMax cnt f i = i then f
            else maxHeapifyF fuel cnt (swapf f i (pickMax cnt f i)) (pickMax cnt f i)) j))
      ∧ (∀ j, ¬ InSub i j → (if pickMax cnt f i = i then f
            else maxHeapifyF fuel cnt (swapf f i (pickMax cnt f i)) (pickMax cnt f i)) j = f j)
      ∧ (∀ j, InSub i j → j < cnt →
          ∃ k, InSub i k ∧ k < cnt ∧ (if pickMax cnt f i = i then f
            else maxHeapifyF fuel cnt (swapf f i (pickMax cnt f i)) (pickMax cnt f i)) j = f k)
    split_ifs with hstop
    · -- no swap: `f` is returned unchanged
      rcases pickMax_spec cnt f i with ⟨_, hgL, hgR⟩ | ⟨hne, _⟩
      · refine ⟨?_, fun j _ => rfl, fun j hj hjc => ⟨j, hj, hjc, rfl⟩⟩
        intro j hj0 hjc hsub
        by_cases hpi : parentIndex j = i
        · rcases child_of_parentIndex hj0 with hc | hc
          · rw [hpi] at hc; rw [hpi, hc]; exact hgL (hc ▸ hjc)
          · rw [hpi] at hc; rw [hpi, hc]; exact hgR (hc ▸ hjc)
        · exact pre j hj0 hjc hsub hpi
      · exact absurd hstop hne
    -- swap with the larger child `p`, then recurse at `p`
    rcases pickMax_spec cnt f i with ⟨he, _⟩ | ⟨_, hip, hpc, hchild, hgi, hgL, hgR⟩
    · exact absurd he hstop
    set p := pickMax cnt f i with hpdef
    have hic : i < cnt := by omega
    have hparp : parentIndex p = i := by
      rcases hchild with hc | hc
      · rw [hc]; exact parentIndex_left i
      · rw [hc]; exact parentIndex_right i
    have hsubip : InSub i p := by
      rcases hchild with hc | hc
      · rw [hc]; exact InSub.left (InSub.refl i)
      · rw [hc]; exact InSub.right (InSub.refl i)
    -- the subtree at p is a full heap under f (its top edges come from `pre`)
    have hsubheap_p : ∀ j, 0 < j → j < cnt → InSub p (parentIndex j) →
        nodeGe (f (parentIndex j)) (f j) := by
      intro j hj0 hjc hsub
      by_cases hqp : parentIndex j = p
      · refine pre j hj0 hjc ?_ ?_
        · rw [hqp]; exact hsubip
        · rw [hqp]; omega
      · have hq1 : leftChildIndex p ≤ parentIndex j := by
          rcases hsub.ge_child with h | h
          · exact absurd h hqp
          · exact h
        refine pre j hj0 hjc (hsubip.trans hsub) ?_
        unfold leftChildIndex at hq1; omega
    have hdom : ∀ x, x < cnt → InSub p x → nodeGe (f p) (f x) :=
      subtree_dominance hsubheap_p
    -- precondition for the recursive call on the swapped array
    have pre2 : SubHeapExceptTop (swapf f i p) cnt p := by
      intro j hj0 hjc hsub hqp
      have hq1 : leftChildIndex p ≤ parentIndex j := by
        rcases hsub.ge_child with h | h
        · exact absurd h hqp
        · exact h
      have hqgt : p < parentIndex j := by unfold leftChildIndex at hq1; omega
      have hjq : parentIndex j < j := parentIndex_lt hj0
      rw [swapf_other f (by omega : parentIndex j ≠ i) (by omega : parentIndex j ≠ p)]
      rw [swapf_other f (by omega : j ≠ i) (by omega : j ≠ p)]
      exact pre j hj0 hjc (hsubip.trans hsub) (by omega)
    obtain ⟨a2, b2, c2⟩ := ih cnt (swapf f i p) p (by omega) pre2
    have hnpi : ¬ InSub p i := fun h => by have := h.le; omega
    refine ⟨?_, ?_, ?_⟩
    · -- (1) heap order on every edge inside the subtree of i
      intro j hj0 hjc hsub
      by_cases hq : InSub p (parentIndex j)
      · exact a2 j hj0 hjc hq
      · have hgq : maxHeapifyF fuel cnt (swapf f i p) p (parentIndex j) =
          swapf f i p (parentIndex j) := b2 _ hq
        by_cases hqi : parentIndex j = i
        · -- edge leaving i; the maximum f p now sits at i
          have hgi' : maxHeapifyF fuel cnt (swapf f i p) p (parentIndex j) = f p := by
            rw [hgq, hqi, swapf_fst]
          by_cases hjp : j = p
          · -- the child that was swapped: its subtree value is dominated by f p
            obtain ⟨k', hk'sub, hk'c, hk'e⟩ := c2 p (InSub.refl p) hpc
            rw [hgi', hjp, hk'e]
            by_cases hk'p : k' = p
            · rw [hk'p, swapf_snd f (by omega : p ≠ i)]; exact hgi
            · have hk'i : k' ≠ i := by
                have := hk'sub.le; omega
              rw [swapf_other f hk'i hk'p]
              exact hdom k' hk'c hk'sub
          · -- the sibling of p: untouched, dominated by f p
            have hsibling : ¬ InSub p j := by
              intro hpj
              rcases child_of_parentIndex hj0 with hc | hc
              · rw [hqi] at hc
                rcases hchild with hcp | hcp
                · exact hjp (by omega)
                · have : InSub (rightChildIndex i) j := hcp ▸ hpj
                  have hL : InSub (leftChildIndex i) j := by
                    rw [hc]; exact InSub.refl _
                  exact InSub.sibling_disjoint hL this
              · rw [hqi] at hc
                rcases hchild with hcp | hcp
                · have hL : InSub (leftChildIndex i) j := hcp ▸ hpj
                  exact InSub.sibling_disjoint hL (by rw [hc]; exact InSub.refl _)
                · exact hjp (by omega)
            have hji : j ≠ i := by
              have : parentIndex j < j := parentIndex_lt hj0
              omega
            have hjp' : j ≠ p := hjp
            rw [hgi', b2 j hsibling, swapf_other f hji hjp']
            rcases child_of_parentIndex hj0 with hc | hc
            · rw [hqi] at hc; rw [hc]; exact hgL (hc ▸ hjc)
            · rw [hqi] at hc; rw [hc]; exact hgR (hc ▸ hjc)
        · -- edge whose parent is inside subtree(i), off the p-branch: untouched
          have hq1 : leftChildIndex i ≤ parentIndex j := by
            rcases hsub.ge_child with h | h
            · exact absurd h hqi
            · exact h
          have hqp : parentIndex j ≠ p := fun h => hq (h ▸ InSub.refl p)
          have hqj : InSub (parentIndex j) j := by
            rcases child_of_parentIndex hj0 with hc | hc
            · conv_rhs => rw [hc]
              exact InSub.left (InSub.refl _)
            · conv_rhs => rw [hc]
              exact InSub.right (InSub.refl _)
          have hnpj : ¬ InSub p j := by
            intro hpj
            rcases InSub.chain hpj hqj with hch | hch
            · exact hq hch
            · have h1 := hch.le
              have h2 : leftChildIndex (parentIndex j) ≤ p ∨ p = parentIndex j := by
                rcases hch.ge_child with h | h
                · exact Or.inr h
                · exact Or.inl h
              have h3 : p ≤ rightChildIndex i := by
                rcases hchild with hc | hc <;>
                  unfold leftChildIndex rightChildIndex at * <;> omega
              unfold leftChildIndex rightChildIndex at *
              rcases h2 with h2 | h2 <;> omega
          have hji : j ≠ i := by
            have h1 : parentIndex j < j := parentIndex_lt hj0
            unfold leftChildIndex at hq1; omega
          have hjp2 : j ≠ p := fun h => hnpj (h ▸ InSub.refl p)
          have hqi2 : parentIndex j ≠ i := hqi
          rw [hgq, b2 j hnpj, swapf_other f hji hjp2,
            swapf_other f hqi2 hqp]
          exact pre j hj0 hjc hsub hqi
    · -- (2) outside the subtree of i nothing changes
      intro j hj
      have hnpj : ¬ InSub p j := fun h => hj (hsubip.trans h)
      have hji : j ≠ i := fun h => hj (h ▸ InSub.refl i)
      have hjp : j ≠ p := fun h => hj (h ▸ hsubip)
      rw [b2 j hnpj, swapf_other f hji hjp]
    · -- (3) subtree values come from the live subtree
      intro j hj hjc
      by_cases hpj : InSub p j
      · obtain ⟨k', hk'sub, hk'c, hk'e⟩ := c2 j hpj hjc
        by_cases hk'p : k' = p
        · refine ⟨i, InSub.refl i, hic, ?_⟩
          rw [hk'e, hk'p, swapf_snd f (by omega : p ≠ i)]
        · have hk'i : k' ≠ i := by have := hk'sub.le; omega
          refine ⟨k', hsubip.trans hk'sub, hk'c, ?_⟩
          rw [hk'e, swapf_other f hk'i hk'p]
      · have hb := b2 j hpj
        by_cases hji : j = i
        · refine ⟨p, hsubip, hpc, ?_⟩
          rw [hb, hji, swapf_fst]
        · have hjp : j ≠ p := fun h => hpj (h ▸ InSub.refl p)
          refine ⟨j, hj, hjc, ?_⟩
          rw [hb, swapf_other f hji hjp]

/-- Correctness of `maxHeapify` (the loop at its natural bound). -/
theorem maxHeapify_spec (cnt : Nat) (f : Nat → HeapNode) (i : Nat)
    (pre : SubHeapExceptTop f cnt i) :
    (∀ j, 0 < j → j < cnt → InSub i (parentIndex j) →
        nodeGe (maxHeapify cnt f i (parentIndex j)) (maxHeapify cnt f i j))
    ∧ (∀ j, ¬ InSub i j → maxHeapify cnt f i j = f j)
    ∧ (∀ j, InSub i j → j < cnt →
        ∃ k, InSub i k ∧ k < cnt ∧ maxHeapify cnt f i j = f k) :=
  maxHeapifyF_spec (cnt - i) cnt f i (le_refl _) pre

/-- Correctness of the sift-up loop: if every edge not touching `i` holds,
grandparent-dominance holds for the children of `i`, and the node at `i`
carries the strictly largest insertion counter, then after sifting up the
first `m` cells form a heap and are a permutation of what they were.
The insertion-counter hypothesis is what makes the priority-only comparison
of the loop sufficient: an equal-priority parent is always an earlier
insertion, so no swap is needed for the full order to hold. -/
theorem siftUpF_spec (fuel : Nat) : ∀ (i : Nat) (f : Nat → HeapNode) (m : Nat),
    i ≤ fuel → i < m →
    (∀ j, 0 < j → j < m → j ≠ i → nodeGe (f (parentIndex j)) (f j)) →
    (∀ c, c < m → parentIndex c = i → c ≠ i → nodeGe (f (parentIndex i)) (f c)) →
    (∀ j, j < m → j ≠ i → (f j).insertionCount < (f i).insertionCount) →
    HeapInv (siftUpF fuel f i) m
    ∧ (contentsN m (siftUpF fuel f i)).Perm (contentsN m f) := by
  induction fuel with
  | zero =>
    -- the bound is 0 only when `i = 0`, where the loop would not run anyway
    intro i f m hif him h1 h2 h3
    refine ⟨?_, List.Perm.refl _⟩
    intro j hj0 hjm
    by_cases hji : j = i
    · exact absurd hj0 (by omega)
    · exact h1 j hj0 hjm hji
  | succ fuel ih =>
    intro i f m hif him h1 h2 h3
    simp only [siftUpF]
    split_ifs with hcond
    case neg =>
      -- no swap: the array already satisfies the heap property
      refine ⟨?_, List.Perm.refl _⟩
      intro j hj0 hjm
      by_cases hji : j = i
      · subst hji
        have hnp : ¬ ((f (parentIndex j)).priority < (f j).priority) :=
          fun hp => hcond ⟨hj0, hp⟩
        rcases lt_or_eq_of_le (Int.not_lt.mp hnp) with hlt | heq
        · exact Or.inl hlt
        · refine Or.inr ⟨heq.symm, le_of_lt ?_⟩
          exact h3 (parentIndex j) (lt_trans (parentIndex_lt hj0) him)
            (by have := parentIndex_lt hj0; omega)
      · exact h1 j hj0 hjm hji
    -- a swap happens; recurse at the parent
    obtain ⟨hi0, hlt⟩ := hcond
    have hq : parentIndex i < i := parentIndex_lt hi0
    have h1' : ∀ j, 0 < j → j < m → j ≠ parentIndex i →
        nodeGe (swapf f i (parentIndex i) (parentIndex j))
          (swapf f i (parentIndex i) j) := by
      intro j hj0 hjm hjq
      by_cases hji : j = i
      · subst hji
        rw [swapf_fst, swapf_snd f (by omega : parentIndex j ≠ j)]
        exact Or.inl hlt
      · rw [swapf_other f hji hjq]
        by_cases hpji : parentIndex j = i
        · rw [hpji, swapf_fst]
          exact h2 j hjm hpji hji
        · by_cases hpjq : parentIndex j = parentIndex i
          · rw [hpjq, swapf_snd f (by omega : parentIndex i ≠ i)]
            have hge := h1 j hj0 hjm hji
            rw [hpjq] at hge
            left
            have := nodeGe_priority hge
            omega
          · rw [swapf_other f hpji hpjq]
            exact h1 j hj0 hjm hji
    have h2' : ∀ c, c < m → parentIndex c = parentIndex i → c ≠ parentIndex i →
        nodeGe (swapf f i (parentIndex i) (parentIndex (parentIndex i)))
          (swapf f i (parentIndex i) c) := by
      intro c hcm hcp hcq
      by_cases hq0 : parentIndex i = 0
      · -- the sifted node has reached the root
        have hpz : parentIndex 0 = 0 := by unfold parentIndex; omega
        rw [hq0, hpz, ← hq0, swapf_snd f (by omega : parentIndex i ≠ i)]
        by_cases hci : c = i
        · rw [hci, swapf_fst]
          exact Or.inl hlt
        · rw [swapf_other f hci hcq]
          have hc0 : 0 < c := by omega
          have hge := h1 c hc0 hcm hci
          rw [hcp] at hge
          left
          have := nodeGe_priority hge
          omega
      · have hqq : parentIndex (parentIndex i) < parentIndex i :=
          parentIndex_lt (by omega)
        rw [swapf_other f (by omega : parentIndex (parentIndex i) ≠ i)
          (by omega : parentIndex (parentIndex i) ≠ parentIndex i)]
        have hgeq := h1 (parentIndex i) (by omega) (by omega) (by omega)
        by_cases hci : c = i
        · rw [hci, swapf_fst]
          exact hgeq
        · rw [swapf_other f hci hcq]
          have hc0 : 0 < c := by
            rcases Nat.eq_zero_or_pos c with hc | hc
            · exfalso
              rw [hc] at hcp
              unfold parentIndex at hcp hq0
              omega
            · exact hc
          have hgec := h1 c hc0 hcm hci
          rw [hcp] at hgec
          exact nodeGe_trans hgeq hgec
    have h3' : ∀ j, j < m → j ≠ parentIndex i →
        (swapf f i (parentIndex i) j).insertionCount <
          (swapf f i (parentIndex i) (parentIndex i)).insertionCount := by
      intro j hjm hjq
      rw [swapf_snd f (by omega : parentIndex i ≠ i)]
      by_cases hji : j = i
      · rw [hji, swapf_fst]
        exact h3 (parentIndex i) (by omega) (by omega)
      · rw [swapf_other f hji hjq]
        exact h3 j hjm hji
    obtain ⟨hh, hp⟩ := ih (parentIndex i) (swapf f i (parentIndex i)) m
      (by omega) (by omega) h1' h2' h3'
    exact ⟨hh, hp.trans (swapf_perm m f i (parentIndex i) him (by omega))⟩

/-- Correctness of the sift-up loop at its natural bound. -/
theorem siftUp_spec (i : Nat) (m : Nat) (f : Nat → HeapNode) (him : i < m)
    (h1 : ∀ j, 0 < j → j < m → j ≠ i → nodeGe (f (parentIndex j)) (f j))
    (h2 : ∀ c, c < m → parentIndex c = i → c ≠ i → nodeGe (f (parentIndex i)) (f c))
    (h3 : ∀ j, j < m → j ≠ i → (f j).insertionCount < (f i).insertionCount) :
    HeapInv (siftUp f i) m ∧ (contentsN m (siftUp f i)).Perm (contentsN m f) :=
  siftUpF_spec i i f m (le_refl _) him h1 h2 h3

theorem qinv_new (m : Nat) : QInv (newRequestHeap m) := by
  refine ⟨Nat.zero_le _, Nat.div_le_self m 10, ?_, ?_⟩
  · intro j hj0 hjc
    simp only [newRequestHeap] at hjc
    omega
  · intro x hx
    simp only [newRequestHeap, contentsN, List.range_zero, List.map_nil] at hx
    cases hx

/-- Behaviour of `insert` on a valid queue: it fails exactly when the count
has reached the configured maximum; otherwise it succeeds, the count grows by
one, the array length follows the grow-by-doubling-plus-one-capped rule, and
the live contents gain exactly the new node. -/
theorem insert_spec (r : RequestHeapQueue) (req : Nat) (p : Int) (hinv : QInv r) :
    (r.count = r.maxSize → insert r req p = Except.error { size := r.maxSize })
    ∧ (r.count ≠ r.maxSize → ∃ r2, insert r req p = Except.ok r2
        ∧ QInv r2
        ∧ r2.count = r.count + 1
        ∧ r2.maxSize = r.maxSize
        ∧ r2.insertionCount = r.insertionCount + 1
        ∧ r2.dataLen = (if r.count < r.dataLen then r.dataLen
            else min (r.dataLen * 2 + 1) r.maxSize)
        ∧ (contentsN r2.count r2.data).Perm
            (({ priority := p, insertionCount := r.insertionCount + 1,
                request := req } : HeapNode) :: contentsN r.count r.data)) := by
  have hcl := hinv.count_le
  have hlm := hinv.len_le
  constructor
  · -- full queue: the error branch is reached
    intro hfull
    have hge : r.count ≥ r.dataLen := by omega
    have hlen : r.dataLen = r.maxSize := by omega
    unfold insert
    rw [if_pos hge, if_pos (by omega : r.dataLen * 2 + 1 > r.maxSize), if_pos hfull]
  · -- room left: the insert succeeds
    intro hne
    have hcm : r.count < r.maxSize := by omega
    -- the post-growth array agrees with the old one on the live region,
    -- and is long enough for the new cell
    suffices h : ∀ len2 : Nat, ∀ d2 : Nat → HeapNode,
        (∀ k, k < r.count → d2 k = r.data k) →
        r.count + 1 ≤ len2 → len2 ≤ r.maxSize →
        QInv (insertResult r req p len2 d2)
        ∧ (contentsN (r.count + 1) (insertResult r req p len2 d2).data).Perm
          (({ priority := p, insertionCount := r.insertionCount + 1,
              request := req } : HeapNode) :: contentsN r.count r.data) by
      unfold insert
      rcases Nat.lt_or_ge r.count r.dataLen with hlt | hge
      · rw [if_neg (by omega : ¬ r.count ≥ r.dataLen)]
        obtain ⟨h1, h2⟩ := h r.dataLen r.data (fun _ _ => rfl) (by omega) hlm
        exact ⟨_, rfl, h1, rfl, rfl, rfl, by rw [if_pos hlt]; exact rfl, h2⟩
      · have heq : r.count = r.dataLen := by omega
        rw [if_pos hge]
        have hagree : ∀ k, k < r.count → growData r.data r.dataLen k = r.data k := by
          intro k hk
          unfold growData
          rw [if_pos (by omega)]
        rcases Nat.lt_or_ge r.maxSize (r.dataLen * 2 + 1) with hbig | hsmall
        · rw [if_pos (by omega : r.dataLen * 2 + 1 > r.maxSize), if_neg hne]
          obtain ⟨h1, h2⟩ := h r.maxSize (growData r.data r.dataLen) hagree
            (by omega) (le_refl _)
          refine ⟨_, rfl, h1, rfl, rfl, rfl, ?_, h2⟩
          rw [if_neg (by omega : ¬ r.count < r.dataLen)]
          show r.maxSize = min (r.dataLen * 2 + 1) r.maxSize
          omega
        · rw [if_neg (by omega : ¬ r.dataLen * 2 + 1 > r.maxSize)]
          obtain ⟨h1, h2⟩ := h (r.dataLen * 2 + 1) (growData r.data r.dataLen) hagree
            (by omega) (by omega)
          refine ⟨_, rfl, h1, rfl, rfl, rfl, ?_, h2⟩
          rw [if_neg (by omega : ¬ r.count < r.dataLen)]
          show r.dataLen * 2 + 1 = min (r.dataLen * 2 + 1) r.maxSize
          omega
    intro len2 d2 hagree hlen2 hlen2m
    set node : HeapNode :=
      { priority := p, insertionCount := r.insertionCount + 1, request := req }
      with hnode
    have hf1agree : ∀ k, k < r.count → updatef d2 r.count node k = r.data k := by
      intro k hk
      unfold updatef
      rw [if_neg (by omega)]
      exact hagree k hk
    have hf1top : updatef d2 r.count node r.count = node := by
      unfold updatef
      rw [if_pos rfl]
    obtain ⟨hheap, hperm⟩ := siftUp_spec r.count (r.count + 1)
      (updatef d2 r.count node) (by omega)
      (by
        intro j hj0 hjm hji
        have hj : j < r.count := by omega
        have hpj : parentIndex j < r.count := lt_trans (parentIndex_lt hj0) hj
        rw [hf1agree j hj, hf1agree _ hpj]
        exact hinv.heap j hj0 hj)
      (by
        intro c hcm' hcp hcne
        exfalso
        have hc : c < r.count := by omega
        rcases Nat.eq_zero_or_pos c with hc0 | hc0
        · rw [hc0] at hcp
          unfold parentIndex at hcp
          omega
        · have := parentIndex_lt hc0
          omega)
      (by
        intro j hjm hji
        have hj : j < r.count := by omega
        rw [hf1agree j hj, hf1top]
        have hx : r.data j ∈ contentsN r.count r.data :=
          mem_contentsN.mpr ⟨j, hj, rfl⟩
        have := hinv.icBound _ hx
        simp only [hnode]
        omega)
    have hcontents : contentsN (r.count + 1) (updatef d2 r.count node) =
        contentsN r.count r.data ++ [node] := by
      rw [contentsN_succ, hf1top]
      congr 1
      exact contentsN_congr hf1agree
    have hpermAll : (contentsN (r.count + 1)
        (siftUp (updatef d2 r.count node) r.count)).Perm
        (node :: contentsN r.count r.data) := by
      refine hperm.trans ?_
      rw [hcontents]
      exact List.perm_append_singleton _ _
    refine ⟨⟨?_, ?_, ?_, ?_⟩, ?_⟩
    · show r.count + 1 ≤ len2
      omega
    · show len2 ≤ r.maxSize
      omega
    · show HeapInv (siftUp (updatef d2 r.count node) r.count) (r.count + 1)
      exact hheap
    · show ∀ x ∈ contentsN (r.count + 1) (siftUp (updatef d2 r.count node) r.count),
        x.insertionCount ≤ r.insertionCount + 1
      intro x hx
      have hx2 := hpermAll.mem_iff.mp hx
      rcases List.mem_cons.mp hx2 with hx3 | hx3
      · rw [hx3]
      · have := hinv.icBound x hx3
        omega
    · show (contentsN (r.count + 1) (siftUp (updatef d2 r.count node) r.count)).Perm
        (node :: contentsN r.count r.data)
      exact hpermAll

theorem updatef_eq (f : Nat → HeapNode) (i : Nat) (v : HeapNode) :
    updatef f i v i = v := by
  unfold updatef; rw [if_pos rfl]

theorem updatef_ne (f : Nat → HeapNode) (i : Nat) (v : HeapNode) {k : Nat}
    (h : k ≠ i) : updatef f i v k = f k := by
  unfold updatef; rw [if_neg h]

/-- The root of a valid heap dominates every live cell. -/
theorem root_dominates {r : RequestHeapQueue} (hinv : QInv r) :
    ∀ x ∈ contentsN r.count r.data, nodeGe (r.data 0) x := by
  intro x hx
  obtain ⟨k, hk, he⟩ := mem_contentsN.mp hx
  have hdom := @subtree_dominance r.data r.count 0
    (fun j hj0 hjc _ => hinv.heap j hj0 hjc) k hk (InSub.zero k)
  rw [← he]
  exact hdom

/-- Behaviour of `extract` on a valid non-empty queue: it returns the root's
request, the count drops by one, validity is preserved, and the old contents
are the extracted root plus the new contents. -/
theorem extract_spec (r : RequestHeapQueue) (hinv : QInv r) (hc : 0 < r.count) :
    QInv (extract r).2
    ∧ (extract r).2.count = r.count - 1
    ∧ (extract r).2.insertionCount = r.insertionCount
    ∧ (extract r).1 = (r.data 0).request
    ∧ (contentsN r.count r.data).Perm
        (r.data 0 :: contentsN ((extract r).2.count) ((extract r).2.data)) := by
  have hcl := hinv.count_le
  have hlm := hinv.len_le
  set cnt2 := r.count - 1 with hcnt2
  set f1 := updatef r.data 0 (r.data cnt2) with hf1
  have hkey : HeapInv (maxHeapify cnt2 f1 0) cnt2
      ∧ (contentsN cnt2 (maxHeapify cnt2 f1 0)).Perm (contentsN cnt2 f1) := by
    rcases Nat.eq_zero_or_pos cnt2 with h0 | h0
    · rw [h0]
      exact ⟨fun j hj0 hjc => by omega, by rw [contentsN_zero, contentsN_zero]⟩
    · have pre : SubHeapExceptTop f1 cnt2 0 := by
        intro j hj0 hjc hsub hne0
        have hq0 : 0 < parentIndex j := Nat.pos_of_ne_zero hne0
        have hqj : parentIndex j < j := parentIndex_lt hj0
        rw [hf1, updatef_ne _ _ _ (by omega : j ≠ 0),
          updatef_ne _ _ _ (by omega : parentIndex j ≠ 0)]
        exact hinv.heap j hj0 (by omega)
      obtain ⟨ha, _, _⟩ := maxHeapify_spec cnt2 f1 0 pre
      exact ⟨fun j hj0 hjc => ha j hj0 hjc (InSub.zero _),
        maxHeapify_perm cnt2 f1 0⟩
  have hdata : (extract r).2.data = maxHeapify cnt2 f1 0 := rfl
  have hcount : (extract r).2.count = cnt2 := rfl
  have hsucc : r.count = cnt2 + 1 := by omega
  have hpermAll : (contentsN r.count r.data).Perm
      (r.data 0 :: contentsN cnt2 (maxHeapify cnt2 f1 0)) := by
    rcases Nat.eq_zero_or_pos cnt2 with h0 | h0
    · rw [hsucc, h0, contentsN_succ, contentsN_zero, contentsN_zero,
        List.nil_append]
    · have e1 : (contentsN cnt2 r.data ++ [r.data cnt2]).Perm
          (contentsN cnt2 f1 ++ [r.data 0]) :=
        (updatef_perm cnt2 r.data 0 (r.data cnt2) h0).symm
      have e2 : (contentsN cnt2 f1 ++ [r.data 0]).Perm
          (r.data 0 :: contentsN cnt2 f1) :=
        List.perm_append_singleton _ _
      have e3 : (r.data 0 :: contentsN cnt2 f1).Perm
          (r.data 0 :: contentsN cnt2 (maxHeapify cnt2 f1 0)) :=
        (hkey.2).symm.cons _
      rw [hsucc, contentsN_succ]
      exact (e1.trans e2).trans e3
  refine ⟨⟨?_, ?_, ?_, ?_⟩, hcount, rfl, rfl, ?_⟩
  · show cnt2 ≤ r.dataLen
    omega
  · exact hlm
  · show HeapInv (maxHeapify cnt2 f1 0) cnt2
    exact hkey.1
  · show ∀ x ∈ contentsN cnt2 (maxHeapify cnt2 f1 0),
      x.insertionCount ≤ r.insertionCount
    intro x hx
    have hx1 : x ∈ contentsN r.count r.data := by
      refine hpermAll.mem_iff.mpr ?_
      exact List.mem_cons.mpr (Or.inr hx)
    exact hinv.icBound x hx1
  · rw [hdata, hcount]
    exact hpermAll

theorem drainNodesF_perm (fuel : Nat) : ∀ r : RequestHeapQueue, QInv r →
    r.count ≤ fuel → (contentsN r.count r.data).Perm (drainNodesF fuel r) := by
  induction fuel with
  | zero =>
    intro r hinv hle
    have h0 : r.count = 0 := by omega
    simp only [drainNodesF]
    rw [h0, contentsN_zero]
  | succ fuel ih =>
    intro r hinv hle
    simp only [drainNodesF]
    split_ifs with h
    · obtain ⟨hinv2, hcnt, _, _, hperm⟩ := extract_spec r hinv h
      have ihr := ih (extract r).2 hinv2 (by omega)
      exact hperm.trans (ihr.cons _)
    · have h0 : r.count = 0 := by omega
      rw [h0, contentsN_zero]

/-- Draining a valid queue delivers exactly its live contents. -/
theorem drain_perm (r : RequestHeapQueue) (hinv : QInv r) :
    (contentsN r.count r.data).Perm (drainNodes r) :=
  drainNodesF_perm r.count r hinv (le_refl _)

theorem drainNodesF_pairwise (fuel : Nat) : ∀ r : RequestHeapQueue, QInv r →
    r.count ≤ fuel → (drainNodesF fuel r).Pairwise nodeGe := by
  induction fuel with
  | zero =>
    intro r _ _
    exact List.Pairwise.nil
  | succ fuel ih =>
    intro r hinv hle
    simp only [drainNodesF]
    split_ifs with h
    · obtain ⟨hinv2, hcnt, _, _, hperm⟩ := extract_spec r hinv h
      refine List.Pairwise.cons ?_ (ih (extract r).2 hinv2 (by omega))
      intro x hx
      have hx2 : x ∈ contentsN (extract r).2.count (extract r).2.data :=
        (drainNodesF_perm fuel (extract r).2 hinv2 (by omega)).mem_iff.mpr hx
      have hx3 : x ∈ contentsN r.count r.data :=
        hperm.mem_iff.mpr (List.mem_cons.mpr (Or.inr hx2))
      exact root_dominates hinv x hx3
    · exact List.Pairwise.nil

/-- Each drained node dominates all later drained nodes in the heap order. -/
theorem drain_pairwise (r : RequestHeapQueue) (hinv : QInv r) :
    (drainNodes r).Pairwise nodeGe :=
  drainNodesF_pairwise r.count r hinv (le_refl _)

theorem drainRequestsF_eq (fuel : Nat) : ∀ r : RequestHeapQueue,
    drainRequestsF fuel r = (drainNodesF fuel r).map HeapNode.request := by
  induction fuel with
  | zero => intro r; rfl
  | succ fuel ih =>
    intro r
    simp only [drainRequestsF, drainNodesF]
    split_ifs with h
    · rw [List.map_cons, ih (extract r).2]
      rfl
    · rfl

/-- The requests delivered by draining are the `request` fields of the
drained nodes, in order. -/
theorem drainRequests_eq (r : RequestHeapQueue) :
    drainRequests r = (drainNodes r).map HeapNode.request :=
  drainRequestsF_eq r.count r

/-- `enqueueAll` preserves the queue invariant (a full queue rejects the
insert and is left unchanged). -/
theorem enqueueAll_qinv (ops : List (Nat × Int)) :
    ∀ r : RequestHeapQueue, QInv r → QInv (enqueueAll r ops) := by
  induction ops with
  | nil => intro r hinv; exact hinv
  | cons op rest ih =>
    intro r hinv
    obtain ⟨req, p⟩ := op
    obtain ⟨herr, hsucc⟩ := insert_spec r req p hinv
    by_cases hne : r.count = r.maxSize
    · simp only [enqueueAll, enqueue, herr hne]
      exact ih r hinv
    · obtain ⟨r2, he, hinv2, _⟩ := hsucc hne
      simp only [enqueueAll, enqueue, he]
      exact ih r2 hinv2

theorem mkNodes_map_request (ops : List (Nat × Int)) : ∀ ic : Int,
    (mkNodes ops ic).map HeapNode.request = ops.map Prod.fst := by
  induction ops with
  | nil => intro ic; rfl
  | cons op rest ih =>
    intro ic
    obtain ⟨req, p⟩ := op
    simp only [mkNodes, List.map_cons, ih (ic + 1)]

theorem mkNodes_mem_priority {ops : List (Nat × Int)} {q : Int}
    (hops : ∀ op ∈ ops, op.2 = q) : ∀ ic : Int, ∀ x ∈ mkNodes ops ic,
    x.priority = q := by
  induction ops with
  | nil =>
    intro ic x hx
    cases hx
  | cons op rest ih =>
    intro ic x hx
    obtain ⟨req, p⟩ := op
    rcases List.mem_cons.mp hx with hx1 | hx1
    · rw [hx1]
      exact hops (req, p) (List.mem_cons_self _ _)
    · exact ih (fun o ho => hops o (List.mem_cons.mpr (Or.inr ho))) (ic + 1) x hx1

theorem mkNodes_mem_ic (ops : List (Nat × Int)) : ∀ ic : Int, ∀ x ∈ mkNodes ops ic,
    ic < x.insertionCount := by
  induction ops with
  | nil =>
    intro ic x hx
    cases hx
  | cons op rest ih =>
    intro ic x hx
    obtain ⟨req, p⟩ := op
    rcases List.mem_cons.mp hx with hx1 | hx1
    · rw [hx1]
      show ic < ic + 1
      omega
    · have := ih (ic + 1) x hx1
      omega

theorem mkNodes_pairwise_ic (ops : List (Nat × Int)) : ∀ ic : Int,
    (mkNodes ops ic).Pairwise fun a b => a.insertionCount < b.insertionCount := by
  induction ops with
  | nil => intro ic; exact List.Pairwise.nil
  | cons op rest ih =>
    intro ic
    obtain ⟨req, p⟩ := op
    refine List.Pairwise.cons ?_ (ih (ic + 1))
    intro x hx
    exact mkNodes_mem_ic rest (ic + 1) x hx

theorem mkNodes_length (ops : List (Nat × Int)) : ∀ ic : Int,
    (mkNodes ops ic).length = ops.length := by
  induction ops with
  | nil => intro ic; rfl
  | cons op rest ih =>
    intro ic
    obtain ⟨req, p⟩ := op
    simp only [mkNodes, List.length_cons, ih (ic + 1)]

/-- Running a sequence of enqueues that all fit below the maximum: every
insert succeeds, the counters advance by the length of the sequence, and the
contents gain exactly the corresponding nodes. -/
theorem enqueueAll_spec (ops : List (Nat × Int)) :
    ∀ r : RequestHeapQueue, QInv r →
    r.count + ops.length ≤ r.maxSize →
    QInv (enqueueAll r ops)
    ∧ (enqueueAll r ops).count = r.count + ops.length
    ∧ (enqueueAll r ops).insertionCount = r.insertionCount + ops.length
    ∧ (enqueueAll r ops).maxSize = r.maxSize
    ∧ (contentsN (enqueueAll r ops).count (enqueueAll r ops).data).Perm
        (mkNodes ops r.insertionCount ++ contentsN r.count r.data) := by
  induction ops with
  | nil =>
    intro r hinv hlen
    refine ⟨hinv, by simp [enqueueAll], by simp [enqueueAll], rfl, ?_⟩
    simp only [mkNodes, List.nil_append]
    exact List.Perm.refl _
  | cons op rest ih =>
    intro r hinv hlen
    obtain ⟨req, p⟩ := op
    have hne : r.count ≠ r.maxSize := by
      simp only [List.length_cons] at hlen
      omega
    obtain ⟨_, hsucc⟩ := insert_spec r req p hinv
    obtain ⟨r2, he, hinv2, hc2, hm2, hic2, _, hperm2⟩ := hsucc hne
    simp only [enqueueAll, enqueue, he]
    obtain ⟨ih1, ih2, ih3, ih4, ih5⟩ := ih r2 hinv2
      (by simp only [List.length_cons] at hlen; omega)
    refine ⟨ih1, ?_, ?_, by rw [ih4, hm2], ?_⟩
    · rw [ih2, hc2]
      simp only [List.length_cons]
      omega
    · rw [ih3, hic2]
      simp only [List.length_cons]
      push_cast
      ring
    · refine ih5.trans ?_
      rw [hic2]
      have step1 : (mkNodes rest (r.insertionCount + 1) ++
          contentsN r2.count r2.data).Perm
          (mkNodes rest (r.insertionCount + 1) ++
            (({ priority := p, insertionCount := r.insertionCount + 1,
                request := req } : HeapNode) :: contentsN r.count r.data)) :=
        List.Perm.append_left _ hperm2
      refine step1.trans ?_
      simp only [mkNodes, List.cons_append]
      exact List.perm_middle

theorem clearQueue_idem (r : RequestHeapQueue) :
    clearQueue (clearQueue r) = clearQueue r := by
  unfold clearQueue
  congr 1
  funext k
  by_cases h : k < r.dataLen <;> simp [h]

/-- C1: for every finite sequence of `Enqueue(r_i, p_i)` operations on the
in-memory priority queue, exhaustively extracting (repeated dequeue until
empty) yields the requests in non-increasing priority order: the sequence of
root nodes handed out is a chain of non-increasing priorities, and the
requests returned are exactly those nodes' requests. -/
theorem C1_priority_order (m : Nat) (ops : List (Nat × Int)) :
    List.Chain' (fun a b => b.priority ≤ a.priority)
      (drainNodes (enqueueAll (newRequestHeap m) ops))
    ∧ drainRequests (enqueueAll (newRequestHeap m) ops)
      = (drainNodes (enqueueAll (newRequestHeap m) ops)).map HeapNode.request := by
  have hinv := enqueueAll_qinv ops (newRequestHeap m) (qinv_new m)
  have hpw := drain_pairwise _ hinv
  exact ⟨(hpw.imp fun h => nodeGe_priority h).chain', drainRequests_eq _⟩

/-- C2: for every finite sequence of `Enqueue` operations in which all
enqueued requests share the same priority value (and which fits in the
configured maximum, so that every `Enqueue` succeeds), exhaustive extraction
returns the requests in exactly their insertion order. -/
theorem C2_fifo_within_priority (m : Nat) (ops : List (Nat × Int)) (p : Int)
    (hp : ∀ op ∈ ops, op.2 = p) (hlen : ops.length ≤ m) :
    (drainNodes (enqueueAll (newRequestHeap m) ops)).map HeapNode.request
      = ops.map Prod.fst
    ∧ drainRequests (enqueueAll (newRequestHeap m) ops) = ops.map Prod.fst := by
  obtain ⟨hinv, hcnt, hic, hmax, hperm⟩ := enqueueAll_spec ops (newRequestHeap m)
    (qinv_new m) (by show 0 + ops.length ≤ m; omega)
  set q := enqueueAll (newRequestHeap m) ops with hqdef
  have e1 : (newRequestHeap m).insertionCount = (0 : Int) := rfl
  have e2 : contentsN (newRequestHeap m).count (newRequestHeap m).data = [] := rfl
  rw [e1, e2, List.append_nil] at hperm
  have hdperm : (drainNodes q).Perm (mkNodes ops 0) :=
    (drain_perm q hinv).symm.trans hperm
  have hpw := drain_pairwise q hinv
  have hprio : ∀ x ∈ drainNodes q, x.priority = p := fun x hx =>
    mkNodes_mem_priority hp 0 x (hdperm.mem_iff.mp hx)
  have hle : (drainNodes q).Pairwise
      fun a b => a.insertionCount ≤ b.insertionCount := by
    refine hpw.imp_of_mem ?_
    intro a b ha hb hge
    rcases hge with h | ⟨_, h⟩
    · exfalso
      rw [hprio a ha, hprio b hb] at h
      exact lt_irrefl _ h
    · exact h
  have hne : (drainNodes q).Pairwise
      fun a b => a.insertionCount ≠ b.insertionCount := by
    have h1 : ((mkNodes ops 0).map HeapNode.insertionCount).Pairwise (· < ·) :=
      List.Pairwise.map _ (fun a b h => h) (mkNodes_pairwise_ic ops 0)
    have h2 : ((drainNodes q).map HeapNode.insertionCount).Perm
        ((mkNodes ops 0).map HeapNode.insertionCount) := hdperm.map _
    have h3 : ((drainNodes q).map HeapNode.insertionCount).Nodup :=
      h2.nodup_iff.mpr (h1.imp fun h => ne_of_lt h)
    exact List.Pairwise.of_map _ (fun a b h => h) h3
  have hsorted : (drainNodes q).Pairwise icLt := by
    refine (hle.and hne).imp ?_
    rintro a b ⟨ha, hb⟩
    exact lt_of_le_of_ne ha hb
  have hsorted2 : (mkNodes ops 0).Pairwise icLt :=
    (mkNodes_pairwise_ic ops 0).imp fun h => h
  have heq : drainNodes q = mkNodes ops 0 :=
    List.eq_of_perm_of_sorted hdperm hsorted hsorted2
  constructor
  · rw [heq, mkNodes_map_request]
  · rw [drainRequests_eq, heq, mkNodes_map_request]

/-- Witness for C2 at a concrete input: three requests with equal priority
come out in insertion order. -/
theorem C2_fifo_within_priority_witness :
    (∀ op ∈ ([(10, 1), (11, 1), (12, 1)] : List (Nat × Int)), op.2 = 1)
    ∧ ([(10, 1), (11, 1), (12, 1)] : List (Nat × Int)).length ≤ 5
    ∧ (drainNodes (enqueueAll (newRequestHeap 5) [(10, 1), (11, 1), (12, 1)])).map
        HeapNode.request = [10, 11, 12] := by
  refine ⟨by decide, by decide, ?_⟩
  have h := (C2_fifo_within_priority 5 [(10, 1), (11, 1), (12, 1)] 1
    (by decide) (by decide)).1
  rw [h]
  decide

/-- C5: `Enqueue` on the in-memory priority queue fails with the
`QueueMaxSize` error exactly when the element count equals the configured
maximum; otherwise it succeeds and increases the count by one, growing the
backing array (initial capacity `maxSize/10`) by doubling plus one, capped
at `maxSize`. -/
theorem C5_enqueue_full_and_growth (r : RequestHeapQueue) (req : Nat) (p : Int)
    (hinv : QInv r) :
    ((∃ e : QueueMaxSize, enqueue r req p = Except.error e) ↔ r.count = r.maxSize)
    ∧ (∀ r2, enqueue r req p = Except.ok r2 →
        countQueue r2 = countQueue r + 1
        ∧ r2.dataLen = (if r.count < r.dataLen then r.dataLen
            else min (r.dataLen * 2 + 1) r.maxSize))
    ∧ (∀ m : Nat, (newRequestHeap m).dataLen = m / 10) := by
  obtain ⟨herr, hsucc⟩ := insert_spec r req p hinv
  refine ⟨⟨?_, ?_⟩, ?_, fun m => rfl⟩
  · rintro ⟨e, he⟩
    by_contra hne
    obtain ⟨r2, he2, _⟩ := hsucc hne
    rw [enqueue, he2] at he
    cases he
  · intro hfull
    exact ⟨_, herr hfull⟩
  · intro r2 he2
    rw [enqueue] at he2
    by_cases hne : r.count = r.maxSize
    · rw [herr hne] at he2
      cases he2
    · obtain ⟨r2', he', _, hc', _, _, hdl', _⟩ := hsucc hne
      have heq : r2' = r2 := Except.ok.inj (he'.symm.trans he2)
      subst heq
      exact ⟨hc', hdl'⟩

/-- Witness for C5 at a concrete input: a fresh queue of maximum size 20. -/
theorem C5_enqueue_full_and_growth_witness :
    ((∃ e : QueueMaxSize, enqueue (newRequestHeap 20) 7 3 = Except.error e)
      ↔ (newRequestHeap 20).count = (newRequestHeap 20).maxSize)
    ∧ (∀ r2, enqueue (newRequestHeap 20) 7 3 = Except.ok r2 →
        countQueue r2 = countQueue (newRequestHeap 20) + 1
        ∧ r2.dataLen = (if (newRequestHeap 20).count < (newRequestHeap 20).dataLen
            then (newRequestHeap 20).dataLen
            else min ((newRequestHeap 20).dataLen * 2 + 1) (newRequestHeap 20).maxSize))
    ∧ (∀ m : Nat, (newRequestHeap m).dataLen = m / 10) :=
  C5_enqueue_full_and_growth (newRequestHeap 20) 7 3 (qinv_new 20)

/-- C6 (the code, at the claim's failing input): `Clear` zeroes the backing
array but never resets `count`, so after one `Enqueue` on a fresh queue,
`Clear()` followed by `Count()` returns 1 — not 0 as the claim states.
`Clear` is idempotent, as claimed. -/
theorem C6_clear_does_not_reset_count :
    countQueue (clearQueue (enqueueAll (newRequestHeap 10) [(1, 5)])) = 1
    ∧ clearQueue (clearQueue (enqueueAll (newRequestHeap 10) [(1, 5)]))
      = clearQueue (enqueueAll (newRequestHeap 10) [(1, 5)]) :=
  ⟨by decide, clearQueue_idem _⟩

theorem anyRuleMatches_iff (rs : List Str) (url : Str) :
    anyRuleMatches rs url = true ↔ ∃ r ∈ rs, matchURLRule r url = true := by
  induction rs with
  | nil =>
    constructor
    · intro h; cases h
    · rintro ⟨r, hr, _⟩; cases hr
  | cons r rest ih =>
    constructor
    · intro hm
      unfold anyRuleMatches at hm
      split_ifs at hm with h
      · exact ⟨r, List.mem_cons_self _ _, h⟩
      · obtain ⟨r', hr', hm'⟩ := ih.mp hm
        exact ⟨r', List.mem_cons.mpr (Or.inr hr'), hm'⟩
    · rintro ⟨r', hr', hm'⟩
      unfold anyRuleMatches
      split_ifs with h
      · rfl
      · rcases List.mem_cons.mp hr' with he | hr2
        · subst he; exact absurd hm' h
        · exact ih.mpr ⟨r', hr2, hm'⟩

/-- C3, counterexample: the claim asserts
`MatchURLRule("/*?$", "/x?") = true`, but the length pre-check of the code
fires (the rule has 4 characters, the url 3) and the result is `false`;
likewise a wildcard does not exempt a longer rule from that pre-check. -/
theorem C3_match_rule_counterexample :
    matchURLRule ['/', '*', '?', '$'] ['/', 'x', '?'] = false := by decide

/-- C3, amended: `MatchURLRule` matches the empty rule against every url,
accepts on a `*` that ends the rule whatever url remains, returns on `$`
whether the url is exhausted, and returns false early for ANY rule longer
than the url, wildcard or not; `MatchURLRule("/*/*/test", "/hello/world/test")
= true`, `MatchURLRule("/*?$", "/x?param=1") = false`, and
`MatchURLRule("/*?$", "/x?") = false`. -/
theorem C3_match_rule_amended :
    (∀ url : Str, matchURLRule [] url = true)
    ∧ (∀ rule url : Str, url.length < rule.length → matchURLRule rule url = false)
    ∧ (∀ url : Str, matchFrom ['*'] url = true)
    ∧ (∀ (rest url : Str), matchFrom ('$' :: rest) url = url.isEmpty)
    ∧ matchURLRule ['/', '*', '/', '*', '/', 't', 'e', 's', 't']
        ['/', 'h', 'e', 'l', 'l', 'o', '/', 'w', 'o', 'r', 'l', 'd', '/',
          't', 'e', 's', 't'] = true
    ∧ matchURLRule ['/', '*', '?', '$']
        ['/', 'x', '?', 'p', 'a', 'r', 'a', 'm', '=', '1'] = false
    ∧ matchURLRule ['/', '*', '?', '$'] ['/', 'x', '?'] = false := by
  refine ⟨?_, ?_, ?_, ?_, by decide, by decide, by decide⟩
  · intro url
    unfold matchURLRule
    rw [if_neg (by simp), matchFrom]
  · intro rule url h
    unfold matchURLRule
    rw [if_pos h]
  · intro url
    unfold matchFrom
    rw [if_pos rfl]
  · intro rest url
    unfold matchFrom
    rw [if_neg (by decide), if_pos rfl]

/-- Witness for the amended C3 on the hypothesis-bearing part: a one-letter
rule against the empty url. -/
theorem C3_match_rule_amended_witness :
    ([] : Str).length < (['a'] : Str).length
    ∧ matchURLRule ['a'] [] = false :=
  ⟨by decide, C3_match_rule_amended.2.1 ['a'] [] (by decide)⟩

/-- C4: `RobotFile.Allowed` selects the group whose user-agent token equals
`userAgent` exactly, else the default `*` group; a group allows the url if
some allow pattern matches, else denies it if some disallow pattern matches,
else allows it.  On the claim's file: `Allowed("Baidu", "/") = false`,
`Allowed("Slurp", "/tess") = false`, `Allowed("Slurp", "/test/1") = true`,
`Allowed("Other", "/robots.txt") = true`. -/
theorem C4_robot_allowed (l : RobotFile) (d : UserAgentRules) (ua url : Str)
    (hd : l.defaultLimits = some d) :
    (l.Allowed ua url = match mapLookup l.groups ua with
      | some g => g.Allowed url
      | none => d.Allowed url)
    ∧ (∀ g : UserAgentRules, g.Allowed url =
        if ∃ r ∈ g.allowed, matchURLRule r url = true then true
        else if ∃ r ∈ g.disallowed, matchURLRule r url = true then false
        else true)
    ∧ (newRobotFileFromLines noDur noURL c4File).toOption = some c4Parsed
    ∧ c4Parsed.Allowed baiduStr ['/'] = false
    ∧ c4Parsed.Allowed slurpStr ['/', 't', 'e', 's', 's'] = false
    ∧ c4Parsed.Allowed slurpStr ['/', 't', 'e', 's', 't', '/', '1'] = true
    ∧ c4Parsed.Allowed otherStr
        ['/', 'r', 'o', 'b', 'o', 't', 's', '.', 't', 'x', 't'] = true := by
  refine ⟨?_, ?_, by decide, by decide, by decide, by decide, by decide⟩
  · cases h : mapLookup l.groups ua <;> simp [RobotFile.Allowed, h, hd]
  · intro g
    unfold UserAgentRules.Allowed
    by_cases hA : ∃ r ∈ g.allowed, matchURLRule r url = true
    · rw [if_pos ((anyRuleMatches_iff _ _).mpr hA), if_pos hA]
    · rw [if_neg (fun h => hA ((anyRuleMatches_iff _ _).mp h)), if_neg hA]
      by_cases hD : ∃ r ∈ g.disallowed, matchURLRule r url = true
      · rw [if_pos ((anyRuleMatches_iff _ _).mpr hD), if_pos hD]
      · rw [if_neg (fun h => hD ((anyRuleMatches_iff _ _).mp h)), if_neg hD]

/-- Witness for C4: the parsed claim file has a default `*` group, and the
fallback evaluation for an unknown agent is allowed. -/
theorem C4_robot_allowed_witness :
    c4Parsed.defaultLimits = some (newUserAgentRules ['*'])
    ∧ c4Parsed.Allowed otherStr
        ['/', 'r', 'o', 'b', 'o', 't', 's', '.', 't', 'x', 't'] = true :=
  ⟨by decide,
    (C4_robot_allowed c4Parsed (newUserAgentRules ['*']) otherStr
      ['/', 'r', 'o', 'b', 'o', 't', 's', '.', 't', 'x', 't']
      (by decide)).2.2.2.2.2.2⟩

theorem tcLookup_insert_self (m : List (Str × ThrottleState)) (k : Str)
    (v : ThrottleState) : tcLookup (tcInsert m k v) k = some v := by
  induction m with
  | nil => simp [tcInsert, tcLookup]
  | cons kv rest ih =>
    obtain ⟨k', v'⟩ := kv
    unfold tcInsert
    split_ifs with h
    · simp [tcLookup]
    · unfold tcLookup
      rw [if_neg h]
      exact ih

theorem tcLookup_setWaitTime (m : List (Str × ThrottleState)) (k : Str) (D : Int) :
    tcLookup (m.map fun kv => (kv.1, throttleSetWaitTime kv.2 D)) k
      = (tcLookup m k).map fun t => throttleSetWaitTime t D := by
  induction m with
  | nil => rfl
  | cons kv rest ih =>
    obtain ⟨k', v'⟩ := kv
    simp only [List.map_cons]
    unfold tcLookup
    split_ifs with h
    · rfl
    · exact ih

/-- A throttle that has just been waited on carries no pending gate. -/
theorem throttleWait_clears (t : ThrottleState) :
    (throttleWait t).1.pending = none := by
  cases ht : t.pending <;> simp [throttleWait, ht]

theorem throttleWait_none {t : ThrottleState} (h : t.pending = none) :
    (throttleWait t).2 = none := by
  unfold throttleWait
  rw [h]

/-- Two consecutive `Wait` calls for the same host: the second consumes no
back-off gate, whatever the state. -/
theorem collectionWait_twice_none (c : ThrottleCollection) (host : Str) :
    (collectionWait (collectionWait c host).1 host).2 = none := by
  unfold collectionWait
  cases h : tcLookup c.domainThrottles host with
  | some t =>
    simp only [h]
    rw [tcLookup_insert_self]
    exact throttleWait_none (throttleWait_clears t)
  | none =>
    cases hd : c.defaultThrottle with
    | some t =>
      simp only [h, hd]
      exact throttleWait_none (throttleWait_clears t)
    | none =>
      simp only [h, hd]

/-- C9, counterexample: after `SetWaitTime(2)` on a collection with a
default throttle and a domain throttle for host `a`, the first `Wait` (for
host `a`) consumes only that domain throttle's gate: pending back-off
remains in the collection, and a later `Wait` for host `b` blocks on a gate
again — refuting "consumed exactly once, by the first Wait ... no pending
back-off remains anywhere". -/
theorem C9_backoff_counterexample :
    noPendingBackoff ((collectionWait (setWaitTime c9Example 2) aHost).1) = false
    ∧ (collectionWait ((collectionWait (setWaitTime c9Example 2) aHost).1) bHost).2
      = some 2 := by
  constructor
  · decide
  · decide

/-- C9, amended: `SetWaitTime(D)` installs a one-shot gate on the default
throttle and on every domain throttle separately; each gate is consumed by
the first `Wait` routed to that particular throttle (which blocks on the
back-off), and a second `Wait` routed to the same throttle sees no gate. -/
theorem C9_backoff_amended (c : ThrottleCollection) (D : Int) (host : Str) :
    (∀ kv ∈ (setWaitTime c D).domainThrottles, kv.2.pending = some D)
    ∧ (∀ t, c.defaultThrottle = some t →
        (setWaitTime c D).defaultThrottle = some (throttleSetWaitTime t D))
    ∧ ((getThrottle c host).isSome = true →
        (collectionWait (setWaitTime c D) host).2 = some D)
    ∧ (collectionWait ((collectionWait (setWaitTime c D) host).1) host).2 = none := by
  refine ⟨?_, ?_, ?_, ?_⟩
  · intro kv hkv
    obtain ⟨kv', _, he⟩ := List.mem_map.mp hkv
    rw [← he]
    rfl
  · intro t ht
    simp [setWaitTime, ht]
  · intro hsome
    unfold collectionWait
    rw [show (setWaitTime c D).domainThrottles = c.domainThrottles.map
      (fun kv => (kv.1, throttleSetWaitTime kv.2 D)) from rfl, tcLookup_setWaitTime]
    cases h : tcLookup c.domainThrottles host with
    | some t => rfl
    | none =>
      rw [show (setWaitTime c D).defaultThrottle = c.defaultThrottle.map
        (fun t => throttleSetWaitTime t D) from rfl]
      cases hd : c.defaultThrottle with
      | some t => rfl
      | none =>
        exfalso
        unfold getThrottle at hsome
        rw [h, hd] at hsome
        cases hsome
  · exact collectionWait_twice_none (setWaitTime c D) host

/-- Witness for the amended C9: host `a` has a throttle, and its first wait
after `SetWaitTime(2)` consumes the 2-unit gate. -/
theorem C9_backoff_amended_witness :
    (getThrottle c9Example aHost).isSome = true
    ∧ (collectionWait (setWaitTime c9Example 2) aHost).2 = some 2 :=
  ⟨by decide, (C9_backoff_amended c9Example 2 aHost).2.2.1 (by decide)⟩

/-- `addRequest` never removes anything from the visited cache. -/
theorem addRequest_visited_mono (s : SpiderModel) (req : SpiderRequest)
    (p : Int) (u : Str) (hu : u ∈ s.visited) :
    u ∈ (addRequest s req p).1.visited := by
  unfold addRequest
  split_ifs with hdom hvis
  · exact hu
  · cases hrf : runFilters s.filters req with
    | some e => simp only [hrf]; exact hu
    | none => simp only [hrf]; exact hu
  · cases hrf : runFilters s.filters req with
    | some e => simp only [hrf]; exact hu
    | none =>
      simp only [hrf]
      cases hrc : s.robotCheck req with
      | some e =>
        simp only [hrc]
        exact List.mem_append.mpr (Or.inl hu)
      | none =>
        simp only [hrc]
        exact List.mem_append.mpr (Or.inl hu)

/-- C7: on the enqueue path, the URL is recorded in the visited cache before
the robot-exclusion check runs.  Hence when `addRequest` returns
`ROBOT_DENIED`, the resulting cache contains the URL, any later `Visit` or
`Follow` of the same URL under the same configuration fails with
`ALREADY_VISITED`, and no enqueue-path step ever removes a cached URL —
robot-denied URLs are never retried. -/
theorem C7_robot_denied_not_retried (s : SpiderModel) (req : SpiderRequest)
    (p : Int) (h : (addRequest s req p).2 = some SpiderError.robotDenied) :
    req.urlKey ∈ (addRequest s req p).1.visited
    ∧ (∀ (s2 : SpiderModel) (p2 : Int),
        s2.allowedDomains = s.allowedDomains → s2.filters = s.filters →
        req.urlKey ∈ s2.visited →
        addRequest s2 req p2 = (s2, some SpiderError.alreadyVisited))
    ∧ (∀ (s3 : SpiderModel) (r3 : SpiderRequest) (p3 : Int) (u : Str),
        u ∈ s3.visited → u ∈ (addRequest s3 r3 p3).1.visited) := by
  unfold addRequest at h
  split_ifs at h with hdom hvis
  · cases h
  · cases hrf : runFilters s.filters req with
    | some e => rw [hrf] at h; cases h
    | none => rw [hrf] at h; cases h
  · cases hrf : runFilters s.filters req with
    | some e => rw [hrf] at h; cases h
    | none =>
      rw [hrf] at h
      cases hrc : s.robotCheck req with
      | none => rw [hrc] at h; cases h
      | some e =>
        rw [hrc] at h
        refine ⟨?_, ?_, fun s3 r3 p3 u hu => addRequest_visited_mono s3 r3 p3 u hu⟩
        · unfold addRequest
          split_ifs
          · rw [hrf]
            cases hrc2 : s.robotCheck req with
            | some e2 =>
              simp only [hrc2]
              exact List.mem_append.mpr (Or.inr (List.mem_singleton.mpr rfl))
            | none =>
              simp only [hrc2]
              exact List.mem_append.mpr (Or.inr (List.mem_singleton.mpr rfl))
        · intro s2 p2 hdoms hfilters hmem
          unfold addRequest
          have hdom2 : ¬ filterRequestDomain s2 req = false := by
            unfold filterRequestDomain at hdom ⊢
            rw [hdoms]
            exact hdom
          rw [if_neg hdom2, hfilters, hrf, if_pos hmem]

/-- Witness for C7 at a concrete input. -/
theorem C7_robot_denied_not_retried_witness :
    (addRequest c7Example c7Req 1).2 = some SpiderError.robotDenied
    ∧ c7Req.urlKey ∈ (addRequest c7Example c7Req 1).1.visited :=
  ⟨by decide, (C7_robot_denied_not_retried c7Example c7Req 1 (by decide)).1⟩

/-- C10: with no allowed-domain patterns configured, the domain filter
rejects every request, so `addRequest` — and with it `Visit` and `Follow` —
fails with `FORBIDDEN_DOMAIN` and leaves the spider state (visited cache
and queue included) unchanged. -/
theorem C10_empty_allowed_domains (s : SpiderModel) (req : SpiderRequest)
    (p : Int) (h : s.allowedDomains = []) :
    filterRequestDomain s req = false
    ∧ addRequest s req p = (s, some SpiderError.forbiddenDomain)
    ∧ visit s req = (s, some SpiderError.forbiddenDomain)
    ∧ follow s req p = (s, some SpiderError.forbiddenDomain) := by
  have hf : filterRequestDomain s req = false := by
    unfold filterRequestDomain
    rw [h]
    rfl
  have hadd : ∀ p' : Int, addRequest s req p' = (s, some SpiderError.forbiddenDomain) := by
    intro p'
    unfold addRequest
    rw [if_pos hf]
  exact ⟨hf, hadd p, hadd maxIntGo, hadd p⟩

/-- Witness for C10 at a concrete input. -/
theorem C10_empty_allowed_domains_witness :
    c10Example.allowedDomains = []
    ∧ addRequest c10Example c7Req 1 = (c10Example, some SpiderError.forbiddenDomain) :=
  ⟨rfl, (C10_empty_allowed_domains c10Example c7Req 1 rfl).2.1⟩

/-- C8, counterexample: `VisitNow` never invokes the pipeline-finished
callback (nor the response callback or the back-off check), contradicting
the claim that it performs worker steps 3–7 including the callbacks. -/
theorem C8_visitnow_counterexample :
    SpiderEvent.pipelineDone ∉ visitNowTrace := by decide

/-- C8, amended: `VisitNow` bypasses the queue and synchronously performs
only the throttle wait and the HTTP round-trip, returning the raw response;
the back-off check, response callback, selector callbacks and
pipeline-finished callback run only in the ingestor loop. -/
theorem C8_visitnow_amended :
    visitNowTrace = [SpiderEvent.throttleWait, SpiderEvent.httpRoundTrip]
    ∧ SpiderEvent.responseStatusCheck ∉ visitNowTrace
    ∧ SpiderEvent.responseCallback ∉ visitNowTrace
    ∧ SpiderEvent.pipelineDone ∉ visitNowTrace
    ∧ (∀ selectors : List Str,
        SpiderEvent.responseStatusCheck ∈ workerStepTrace selectors
        ∧ SpiderEvent.responseCallback ∈ workerStepTrace selectors
        ∧ SpiderEvent.pipelineDone ∈ workerStepTrace selectors) := by
  refine ⟨rfl, by decide, by decide, by decide, ?_⟩
  intro selectors
  unfold workerStepTrace getResponseTrace
  refine ⟨?_, ?_, ?_⟩ <;> simp [List.mem_append]

end Wander
